import Mathlib

/-
Verification of the OwlDB document store core against its specification.

Shallow embedding conventions:
* Go `any` values holding unmarshalled JSON are modelled by the inductive
  type `JSON`.  Go maps (`map[string]any`) are modelled as association
  lists with the invariant (maintained by `encoding/json`) that keys are
  unique; Go slices are lists.  Go `float64` payloads are opaque to every
  operation modelled here (they are only ever compared for deep equality),
  so they are represented by `Int`.
* A Go pair `(value any, err error)` in the patcher is modelled as
  `Except (Option JSON × String) JSON`: `.ok v` is `(v, nil)`;
  `.error (v?, e)` is `(v?, errors.New e)` where `v? = none` models a
  `nil` value returned next to the error.
* `time.Now().UnixMilli()` is passed in explicitly as a parameter `now`.
-/

namespace OwlDB

/-- JSON values as produced by Go's `encoding/json` unmarshalling into
`any`: objects (`map[string]any`, association list with unique keys),
arrays (`[]any`), numbers (`float64`, opaque here), strings, booleans and
null. -/
inductive JSON where
  | obj : List (String × JSON) → JSON
  | arr : List JSON → JSON
  | num : Int → JSON
  | str : String → JSON
  | jbool : Bool → JSON
  | null : JSON

/-- `patcher.Patch`: operation, path and value of one patch. -/
structure Patch where
  Operation : String
  Path : String
  Value : JSON

/-- Result of a patch visit: Go's `(any, error)` pair, where an error may
be accompanied by a value (possibly `nil = none`). -/
abbrev PRes := Except (Option JSON × String) JSON

/-- Digits of `strconv.Atoi`: all characters must be decimal digits and
there must be at least one. -/
def goDigits : List Char → Option Nat
  | [] => none
  | [c] => if c.isDigit then some (c.toNat - 48) else none
  | c :: cs =>
    if c.isDigit then
      match goDigits cs with
      | some n => some ((c.toNat - 48) * 10 ^ cs.length + n)
      | none => none
    else none

/-- `strconv.Atoi`: optional sign followed by decimal digits.  (Overflow
of 64-bit ints is not modelled; no claim exercises it.) -/
def goAtoi (s : String) : Option Int :=
  match s.toList with
  | '+' :: ds => (goDigits ds).map (fun n => (n : Int))
  | '-' :: ds => (goDigits ds).map (fun n => -(n : Int))
  | ds => (goDigits ds).map (fun n => (n : Int))

mutual

/-- `patcher.Equal` = `reflect.DeepEqual` on unmarshalled JSON values.
On the association-list representation with consistently ordered unique
keys deep equality is structural equality. -/
def jsonEqual : JSON → JSON → Bool
  | JSON.obj a, JSON.obj b => entriesEqual a b
  | JSON.arr a, JSON.arr b => elemsEqual a b
  | JSON.num a, JSON.num b => a == b
  | JSON.str a, JSON.str b => a == b
  | JSON.jbool a, JSON.jbool b => a == b
  | JSON.null, JSON.null => true
  | _, _ => false

/-- Deep equality of JSON objects, entry by entry. -/
def entriesEqual : List (String × JSON) → List (String × JSON) → Bool
  | [], [] => true
  | (k1, v1) :: r1, (k2, v2) :: r2 => k1 == k2 && jsonEqual v1 v2 && entriesEqual r1 r2
  | _, _ => false

/-- Deep equality of JSON arrays, element by element. -/
def elemsEqual : List JSON → List JSON → Bool
  | [], [] => true
  | v1 :: r1, v2 :: r2 => jsonEqual v1 v2 && elemsEqual r1 r2
  | _, _ => false

end

/-- The `ArrayRemove` loop of `patchVisitor.Slice`: remove the first
element deeply equal to `v`; if none matches return the slice unchanged. -/
def removeFirst (v : JSON) : List JSON → List JSON
  | [] => []
  | x :: xs => if jsonEqual x v then xs else x :: removeFirst v xs

/-
The patch visitor.  `patchVisitor.currentPath` is a string; the code
repeatedly takes `strings.SplitAfterN(currentPath, "/", 2)` and strips the
trailing `/` from the first component.  That is exactly the head/tail
decomposition of `currentPath.splitOn "/"`, so the remaining path is
represented by its first segment `seg` and the list `rest` of further
segments (`currentPath = ""` corresponds to `seg = "", rest = []`).
`patchVisitor.Map` and `patchVisitor.Slice` are inlined in `acceptVisit`
(the Go `Accept` dispatches on the dynamic type exactly as the `match`
below does); `visitEntries`/`visitElems` are the `for … range` loops of
`Map` and `Slice` that rebuild the object/array, visiting the entry whose
key/index matches and propagating `(updated, err)` on error.
-/

/-- The `for key, val := range m` existence scan in the terminal case of
`patchVisitor.Map`: does the object already hold the target key? -/
def keyExists (m : List (String × JSON)) (s : String) : Bool :=
  match m with
  | [] => false
  | (k, _) :: es => if k = s then true else keyExists es s

mutual

/-- `patcher.Accept` applied to the patch visitor, with the `Map` and
`Slice` methods of `patchVisitor` inlined at their dispatch site.  The
Go guard `len(splittedPath) == 1 && op == "ObjectAdd"` is rendered as a
match on `rest` followed by the test on `op` (the branches are mutually
exclusive, so the order of the tests does not matter), and likewise the
three `currentPath == ""` guards of `Slice` are grouped under one test. -/
def acceptVisit (op : String) (pv : JSON) (seg : String) (rest : List String) :
    JSON → PRes
  | JSON.obj m =>
    -- patchVisitor.Map
    match rest with
    | [] =>
      if op = "ObjectAdd" then
        -- at the target location: no-op if the key exists, else add it
        if keyExists m seg then .ok (JSON.obj m)
        else .ok (JSON.obj (m ++ [(seg, pv)]))
      else
        -- final segment, other operation: descend with currentPath = ""
        match visitEntries op pv seg "" [] m with
        | .error e => .error e
        | .ok (res, found) =>
          if found then .ok (JSON.obj res)
          else .error (some (JSON.obj m), "Key " ++ seg ++ " not found in map")
    | s2 :: r2 =>
      -- descend into the entry whose key matches, with the remaining path
      match visitEntries op pv seg s2 r2 m with
      | .error e => .error e
      | .ok (res, found) =>
        if found then .ok (JSON.obj res)
        else .error (some (JSON.obj m), "Key " ++ seg ++ " not found in map")
  | JSON.arr l =>
    -- patchVisitor.Slice
    if seg = "" ∧ rest = [] then
      if op = "ArrayAdd" then .ok (JSON.arr (l ++ [pv]))
      else if op = "ArrayRemove" then .ok (JSON.arr (removeFirst pv l))
      else .error (none, "invalid patch operation")
    else
      match goAtoi seg with
      | none => .error (some (JSON.arr l), "invalid index")
      | some n =>
        if (l.length : Int) ≤ n then
          .error (some (JSON.arr l), "index out of bounds")
        else
          match rest with
          | [] => .error (some (JSON.arr l), "path ends in slice")
          | s2 :: r2 =>
            match visitElems op pv n s2 r2 0 l with
            | .error e => .error e
            | .ok res => .ok (JSON.arr res)
  | JSON.num _ => .error (none, "patching a number is not supported")
  | JSON.jbool _ => .error (none, "patching a boolean is not supported")
  | JSON.str _ => .error (none, "patching a string is not supported")
  | JSON.null => .error (none, "patching a null is not supported")

/-- The `for key, val := range m` loop of `patchVisitor.Map` (non-terminal
case): visit the value stored under the target key, keep all other
entries, and report whether the key was found. -/
def visitEntries (op : String) (pv : JSON) (tgt s2 : String) (r2 : List String) :
    List (String × JSON) → Except (Option JSON × String) (List (String × JSON) × Bool)
  | [] => .ok ([], false)
  | (k, v) :: es =>
    if k = tgt then
      match acceptVisit op pv s2 r2 v with
      | .error e => .error e
      | .ok nv =>
        match visitEntries op pv tgt s2 r2 es with
        | .error e => .error e
        | .ok (res, _) => .ok ((k, nv) :: res, true)
    else
      match visitEntries op pv tgt s2 r2 es with
      | .error e => .error e
      | .ok (res, found) => .ok ((k, v) :: res, found)

/-- The `for i, val := range slice` loop of `patchVisitor.Slice`
(intermediate-index case): visit the element at the target index, keep the
others.  A negative target index matches no element. -/
def visitElems (op : String) (pv : JSON) (tgt : Int) (s2 : String) (r2 : List String)
    (i : Nat) : List JSON → Except (Option JSON × String) (List JSON)
  | [] => .ok []
  | v :: vs =>
    if (i : Int) = tgt then
      match acceptVisit op pv s2 r2 v with
      | .error e => .error e
      | .ok nv =>
        match visitElems op pv tgt s2 r2 (i + 1) vs with
        | .error e => .error e
        | .ok res => .ok (nv :: res)
    else
      match visitElems op pv tgt s2 r2 (i + 1) vs with
      | .error e => .error e
      | .ok res => .ok (v :: res)

end

/-- `strings.Split` on the separator `/`, on the character list of a Go
string (always returns at least one, possibly empty, field). -/
def chSplit : List Char → List (List Char)
  | [] => [[]]
  | c :: r =>
    if c = '/' then [] :: chSplit r
    else
      match chSplit r with
      | [] => [[c]]  -- unreachable: chSplit never returns []
      | g :: gs => (c :: g) :: gs

/-- `patcher.new`: cut the leading `/` from the patch path and set up the
visitor; error if the slash is missing.  The remaining path is returned in
head/tail segment form. -/
def newVisitor (p : Patch) : Option (String × List String) :=
  match p.Path.toList with
  | '/' :: rest =>
    match (chSplit rest).map (fun g => String.mk g) with
    | [] => some ("", [])  -- unreachable
    | s :: r => some (s, r)
  | _ => none

/-- `patcher.ApplyPatch`: build the visitor (returning `(nil, err)` when
the leading slash is missing) and run it on the document. -/
def ApplyPatch (doc : JSON) (p : Patch) : PRes :=
  match newVisitor p with
  | none => .error (none, "missing leading slash")
  | some (s, r) => acceptVisit p.Operation p.Value s r doc

/-
Go slice aliasing at the `ArrayRemove` site.  `patchVisitor.Slice` runs
`array := append(slice[:i], slice[i+1:]...)` when element `i` is the first
deep-equal match.  `slice[:i]` shares the caller's backing array and has
spare capacity, so the append copies `slice[i+1:]` into positions
`i..len-2` of that shared array; position `len-1` keeps its old value.
The caller's original slice header still has length `len`, so after the
call the caller reads `take i ++ drop (i+1) ++ [last element]`.
-/

/-- Index of the first element deeply equal to `v` (the search loop of
`ArrayRemove`). -/
def firstEqualIdx (v : JSON) : List JSON → Option Nat
  | [] => none
  | x :: xs => if jsonEqual x v then some 0 else (firstEqualIdx v xs).map (· + 1)

/-- What the caller's original array reads after `ArrayRemove` removed the
first match in place (per the aliasing described above); if nothing
matched the array is untouched. -/
def arrayRemoveCallerView (l : List JSON) (v : JSON) : List JSON :=
  match firstEqualIdx v l with
  | none => l
  | some i =>
    l.take i ++ l.drop (i + 1) ++ (match l.getLast? with | some x => [x] | none => [])

/-
`document.Document` (document.go).  The nested collection holder
(`children`) and the subscriber manager are omitted: no claim below
observes them (`OverwriteBody` additionally resets `children` to a fresh
empty holder).  `time.Now().UnixMilli()` is the explicit parameter `now`.
-/

/-- `document.meta`. -/
structure Meta where
  CreatedBy : String
  CreatedAt : Int
  LastModifiedBy : String
  LastModifiedAt : Int

/-- `document.docOutput`. -/
structure DocOutput where
  Path : String
  Doc : JSON
  Meta : Meta

/-- `document.Document` (body-and-metadata part). -/
structure Document where
  output : DocOutput

/-- `document.New` / `newOutput` / `newMeta`. -/
def docNew (path user : String) (docBody : JSON) (now : Int) : Document :=
  ⟨⟨path, docBody, ⟨user, now, user, now⟩⟩⟩

/-- `Document.OverwriteBody`: replace the body, stamp
`lastModifiedAt/By` (children wiped, not modelled). -/
def OverwriteBody (d : Document) (docBody : JSON) (name : String) (now : Int) : Document :=
  { output := { d.output with
      Doc := docBody,
      Meta := { d.output.Meta with LastModifiedAt := now, LastModifiedBy := name } } }

/-- `patcher.PatchResponse`. -/
structure PatchResponse where
  Uri : String
  PatchFailed : Bool
  Message : String

/-- The `for i, patch := range patchData` loop of
`Document.ApplyPatches`: apply the patches sequentially, stopping at the
first error with its index. -/
def applyPatchList : JSON → List Patch → Nat → Except (Nat × String) JSON
  | d, [], _ => .ok d
  | d, p :: ps, i =>
    match ApplyPatch d p with
    | .error (_, e) => .error (i, e)
    | .ok nd => applyPatchList nd ps (i + 1)

/-- `Document.ApplyPatches`: apply all patches, then validate against the
schema (modelled as an opaque predicate `schemaOk`; the Go message
appends the validator's error text, which the opaque model leaves out).
Returns the response and the new body (`nil = none` on failure). -/
def ApplyPatches (d : Document) (patchData : List Patch) (schemaOk : JSON → Bool) :
    PatchResponse × Option JSON :=
  match applyPatchList d.output.Doc patchData 0 with
  | .error (i, e) =>
    ({ Uri := "", PatchFailed := true,
       Message := "Error applying patch " ++ toString i ++ ": " ++ e }, none)
  | .ok nd =>
    if schemaOk nd then
      ({ Uri := "", PatchFailed := false, Message := "Patches applied successfully" }, some nd)
    else
      ({ Uri := "", PatchFailed := true,
         Message := "Patched document does not conform to the schema" }, none)

/-- `Collection.PatchDoc`, after the document was found and the patch list
unmarshalled: apply the patches, set the response URI, and on success
overwrite the stored document (the Go code calls `OverwriteBody` on the
found document and re-upserts the same pointer) and reply 200, else reply
400 leaving the document unchanged.  Result: (status, response, stored
document afterwards). -/
def PatchDoc (storedDoc : Document) (patchData : List Patch) (schemaOk : JSON → Bool)
    (name uri : String) (now : Int) : Nat × PatchResponse × Document :=
  let pr := ApplyPatches storedDoc patchData schemaOk
  let resp := { pr.1 with Uri := uri }
  if resp.PatchFailed = false then
    -- newDoc is non-nil exactly when the patch batch succeeded
    (200, resp, OverwriteBody storedDoc (pr.2.getD JSON.null) name now)
  else
    (400, resp, storedDoc)

/-
`Collection.PutDoc` (part_004), existing-document arm of the `docUpsert`
callback.  `newDoc` is the fresh document built from the request body by
`handlers.createDoc` (so its metadata carries the request time, not the
stored document's).  Note the source reads `docMeta` and `docOverwrite`
from `newDoc`, not from `currentValue`: the timestamp is compared against
`newDoc.GetLastModified()`, `OverwriteBody` runs on `newDoc`, and the
callback returns `currentValue` unchanged as the value to store.
-/

/-- The `exists == true` arm of `docUpsert` in `Collection.PutDoc`.
Returns the value stored back into the skip list together with the
(mutated) request document, or the error. -/
def putDocUpsertExisting (currentValue newDoc : Document) (timeStamp now : Int) :
    Except String (Document × Document) :=
  let matchOld := timeStamp = newDoc.output.Meta.LastModifiedAt
  if timeStamp ≠ -1 ∧ ¬matchOld then .error "Bad timestamp"
  else
    let newDoc' := OverwriteBody newDoc newDoc.output.Doc newDoc.output.Meta.CreatedBy now
    .ok (currentValue, newDoc')

/-- `Collection.PutDoc` outcome when the path names an existing document:
"Bad timestamp" maps to HTTP 400 with the skip list unchanged; success
replies 200 (updated) and stores the callback's returned value.  Result:
(status, stored document afterwards). -/
def PutDocExisting (stored newDoc : Document) (timeStamp now : Int) : Nat × Document :=
  match putDocUpsertExisting stored newDoc timeStamp now with
  | .error _ => (400, stored)
  | .ok (kept, _) => (200, kept)

/-
`SkipList.Query` (skiplist.go lines 393-411).  The loop body reads the
operation counter, runs one bottom-level pass `s.query(start, end)`, and
re-reads the counter.  If the two reads agree it returns the pass result.
Otherwise it executes `select { case <-context.Done(): return nil,
context.Err() }` — a select with a single case and no default, which
blocks until the context is cancelled and then returns the cancellation
error.  Control therefore never reaches a second pass: the environment of
one call is one pre-read, one pass, one post-read, and whether the
context is ever cancelled.
-/

/-- Possible outcomes of one `Query` call. -/
inductive QueryOutcome (A : Type) where
  | ok (res : A)
  | cancelledErr
  | blocksForever

/-- The environment a `Query` call observes: the two counter reads
around its single collecting pass, the pass result, and whether the
context is ever cancelled. -/
structure QueryEnv (A : Type) where
  opsBefore : Nat
  opsAfter : Nat
  passResult : A
  ctxEventuallyCancelled : Bool

/-- Control flow of `SkipList.Query` over one observed environment. -/
def goQuery {A : Type} (e : QueryEnv A) : QueryOutcome A :=
  if e.opsBefore = e.opsAfter then .ok e.passResult
  else if e.ctxEventuallyCancelled then .cancelledErr
  else .blocksForever

/-
The skip list (skiplist.go), in its quiescent states: the states between
complete operations of a sequential execution, in which every interior
node is fully linked and unmarked (Upsert sets fullyLinked before
returning; Remove marks and physically unlinks before returning), so the
marked/fullyLinked bits are constant and are dropped from the state.  A
node carries its key, value and topLevel; it owns `topLevel+1` forward
pointers and is reachable in the level-`l` list exactly for
`l ≤ topLevel`.  The head sentinel has topLevel `maxLevel-1`; the tail
sentinel has topLevel 0, the Go zero value of `V` as its value, and is
fully linked and unmarked from construction on.
-/

/-- One interior node of the skip list. -/
structure SLNode (K V : Type) where
  key : K
  value : V
  topLevel : Nat

/-- A quiescent skip-list state.  `nodes` holds the interior nodes in
bottom-level (ascending key) order; the sentinels are implicit in
`minKey`/`maxKey`/`headTop`/`tailValue`.  `zeroV` is the Go zero value of
`V` (returned by failed `Find`/`Remove`). -/
structure SLState (K V : Type) where
  minKey : K
  maxKey : K
  headTop : Nat
  tailValue : V
  zeroV : V
  nodes : List (SLNode K V)

/-- `skiplist.New`: empty list, head topLevel `maxLevel-1`, tail value the
zero value of `V`. -/
def slNew {K V : Type} (minK maxK : K) (maxLevel : Nat) (zero : V) : SLState K V :=
  { minKey := minK, maxKey := maxK, headTop := maxLevel - 1,
    tailValue := zero, zeroV := zero, nodes := [] }

/-- The interior nodes present in the level-`l` list of a well-formed
skip list: those with `l ≤ topLevel`. -/
def chainAt {K V : Type} (s : SLState K V) (l : Nat) : List (SLNode K V) :=
  s.nodes.filter (fun n => decide (l ≤ n.topLevel))

/-- The `for current.key < key` scan of `SkipList.find` at one level:
first chain node whose key is not below `key`; `none` means the scan
stopped at the tail sentinel. -/
def firstGE {K V : Type} [LinearOrder K] (k : K) : List (SLNode K V) → Option (SLNode K V)
  | [] => none
  | n :: rest => if n.key < k then firstGE k rest else some n

/-- `succs[l]` of `SkipList.find` (the tail sentinel is `none`). -/
def succAt {K V : Type} [LinearOrder K] (s : SLState K V) (l : Nat) (k : K) :
    Option (SLNode K V) :=
  firstGE k (chainAt s l)

/-- The key of `succs[l]` (the tail's key when the scan reached it). -/
def succKeyAt {K V : Type} [LinearOrder K] (s : SLState K V) (l : Nat) (k : K) : K :=
  match succAt s l k with
  | some n => n.key
  | none => s.maxKey

/-- `levelFound` of `SkipList.find`: the top-down scan keeps the highest
level at which the successor's key equals the target; `none` is Go's -1.
The scan starts at `head.topLevel`. -/
def levelFoundFrom {K V : Type} [LinearOrder K] (s : SLState K V) (k : K) : Nat → Option Nat
  | 0 => if succKeyAt s 0 k = k then some 0 else none
  | l + 1 => if succKeyAt s (l + 1) k = k then some (l + 1) else levelFoundFrom s k l

/-- `levelFound` over all levels `head.topLevel … 0`. -/
def levelFound {K V : Type} [LinearOrder K] (s : SLState K V) (k : K) : Option Nat :=
  levelFoundFrom s k s.headTop

/-- `SkipList.Find` in a quiescent state: if `find` saw the key, return
the successor's value with its `fullyLinked && !marked` bits (always true
between operations, also for the tail sentinel); otherwise the zero value
and false. -/
def SLFind {K V : Type} [LinearOrder K] (s : SLState K V) (k : K) : V × Bool :=
  match levelFound s k with
  | none => (s.zeroV, false)
  | some l =>
    match succAt s l k with
    | some n => (n.value, true)
    | none => (s.tailValue, true)

/-- `found.value = newValue` inside the Upsert critical section: update
the value stored at key `k` in place. -/
def updateValue {K V : Type} [LinearOrder K] (nodes : List (SLNode K V)) (k : K) (nv : V) :
    List (SLNode K V) :=
  nodes.map (fun n => if n.key = k then { n with value := nv } else n)

/-- The level-by-level splice of a new node between the `preds`/`succs`
of `find`: in bottom-level order this inserts the node at its sorted
position. -/
def insertNode {K V : Type} [LinearOrder K] (x : SLNode K V) :
    List (SLNode K V) → List (SLNode K V)
  | [] => [x]
  | n :: rest => if n.key < x.key then n :: insertNode x rest else x :: n :: rest

/-- The top-down unlink of `Remove`: drop the (unique) node with key `k`
from every level, i.e. from the bottom-level order. -/
def removeNode {K V : Type} [LinearOrder K] (k : K) :
    List (SLNode K V) → List (SLNode K V)
  | [] => []
  | n :: rest => if n.key = k then rest else n :: removeNode k rest

/-- `skiplist.UpdateCheck`. -/
abbrev UpdateCheck (K V E : Type) := K → V → Bool → Except E V

/-- `SkipList.Upsert` run to completion without contention (the
sequential execution: validation succeeds, the retry loop runs once).
`lvl` is the outcome of the coin-flip loop, clamped to `head.topLevel` as
in the code.  Returns the new state and Go's `updated` flag. -/
def SLUpsert {K V E : Type} [LinearOrder K] (s : SLState K V) (k : K) (lvl : Nat)
    (check : UpdateCheck K V E) : Except E (SLState K V × Bool) :=
  let t := min lvl s.headTop
  match levelFound s k with
  | some l =>
    match succAt s l k with
    | some n =>
      -- found an unmarked, fully-linked interior node: lock, run check
      match check k n.value true with
      | .error e => .error e
      | .ok nv => .ok ({ s with nodes := updateValue s.nodes k nv }, true)
    | none =>
      -- the successor is the tail sentinel (k = maxKey): the tail is
      -- unmarked and fully linked, so its value field is updated
      match check k s.tailValue true with
      | .error e => .error e
      | .ok nv => .ok ({ s with tailValue := nv }, true)
  | none =>
    match check k s.zeroV false with
    | .error e => .error e
    | .ok nv => .ok ({ s with nodes := insertNode ⟨k, nv, t⟩ s.nodes }, false)

/-- `SkipList.Remove` run to completion without contention.  Returns
`(removed value, ok)` and the new state. -/
def SLRemove {K V : Type} [LinearOrder K] (s : SLState K V) (k : K) :
    (V × Bool) × SLState K V :=
  match levelFound s k with
  | none => ((s.zeroV, false), s)
  | some l =>
    match succAt s l k with
    | some victim =>
      -- quiescent: the victim is fully linked and unmarked; the remaining
      -- guard is `victim.topLevel != levelFound`
      if victim.topLevel ≠ l then ((s.zeroV, false), s)
      else ((victim.value, true), { s with nodes := removeNode k s.nodes })
    | none =>
      -- the victim is the tail sentinel (k = maxKey): its topLevel is 0
      -- while levelFound is head.topLevel, so the guard rejects whenever
      -- head.topLevel > 0 (the deployed configuration has 5 levels).
      if (0 : Nat) ≠ l then ((s.zeroV, false), s)
      else ((s.tailValue, true), s)  -- degenerate 1-level list (unreachable below)

/-- One point operation issued to the skip list; `lvl` records the
outcome of Upsert's random level draw (adversarially quantified). -/
inductive SLOp (K V E : Type) where
  | upsert (k : K) (lvl : Nat) (check : UpdateCheck K V E)
  | remove (k : K)

/-- The key an operation addresses. -/
def SLOp.key {K V E : Type} : SLOp K V E → K
  | .upsert k _ _ => k
  | .remove k => k

/-- Apply one operation to a quiescent state (a failed Upsert leaves the
state unchanged). -/
def SLStep {K V E : Type} [LinearOrder K] (s : SLState K V) : SLOp K V E → SLState K V
  | .upsert k lvl check =>
    match SLUpsert s k lvl check with
    | .error _ => s
    | .ok (s', _) => s'
  | .remove k => (SLRemove s k).2

/-- Run a sequence of operations left to right. -/
def SLRun {K V E : Type} [LinearOrder K] (s : SLState K V) (ops : List (SLOp K V E)) :
    SLState K V :=
  ops.foldl SLStep s

/-
Reference ordered map, written from the spec's words (§8: "a Find for
key K returns either no value or a value that was last written by some
Upsert … that was not followed by a successful Remove"; §3: ordered
indexed map with unique keys in ascending order).  It is the second
definition of the refinement claim C4: an association list in ascending
key order with the plain upsert/remove/lookup semantics.
-/

/-- Reference map lookup. -/
def refLookup {K V : Type} [DecidableEq K] (k : K) : List (K × V) → Option V
  | [] => none
  | (k1, v1) :: rest => if k1 = k then some v1 else refLookup k rest

/-- Reference map sorted insertion (key assumed absent). -/
def refInsert {K V : Type} [LinearOrder K] (k : K) (v : V) : List (K × V) → List (K × V)
  | [] => [(k, v)]
  | (k1, v1) :: rest =>
    if k1 < k then (k1, v1) :: refInsert k v rest else (k, v) :: (k1, v1) :: rest

/-- Reference map in-place value update. -/
def refUpdate {K V : Type} [DecidableEq K] (k : K) (v : V) (m : List (K × V)) :
    List (K × V) :=
  m.map (fun e => if e.1 = k then (k, v) else e)

/-- Reference map erasure. -/
def refErase {K V : Type} [DecidableEq K] (k : K) : List (K × V) → List (K × V)
  | [] => []
  | (k1, v1) :: rest => if k1 = k then rest else (k1, v1) :: refErase k rest

/-- One step of the reference ordered map: Upsert consults the check
callback exactly like the skip list (update an existing binding, insert a
new one, keep the map on error); Remove erases the binding if present. -/
def RefStep {K V E : Type} [LinearOrder K] (zero : V) (m : List (K × V)) :
    SLOp K V E → List (K × V)
  | .upsert k _ check =>
    match refLookup k m with
    | some v =>
      match check k v true with
      | .error _ => m
      | .ok nv => refUpdate k nv m
    | none =>
      match check k zero false with
      | .error _ => m
      | .ok nv => refInsert k nv m
  | .remove k =>
    match refLookup k m with
    | some _ => refErase k m
    | none => m

/-- Run the reference map. -/
def RefRun {K V E : Type} [LinearOrder K] (zero : V) (m : List (K × V))
    (ops : List (SLOp K V E)) : List (K × V) :=
  ops.foldl (RefStep zero) m

/-- The key/value projection of a quiescent skip-list state. -/
def projKV {K V : Type} (s : SLState K V) : List (K × V) :=
  s.nodes.map (fun n => (n.key, n.value))

/-- Well-formedness of a quiescent skip-list state: interior nodes in
strictly ascending key order, all keys below the tail sentinel, all
topLevels within the head's levels. -/
structure SLInv {K V : Type} [LinearOrder K] (s : SLState K V) : Prop where
  sorted : s.nodes.Pairwise (fun a b => a.key < b.key)
  below : ∀ n ∈ s.nodes, n.key < s.maxKey
  levels : ∀ n ∈ s.nodes, n.topLevel ≤ s.headTop

/-
Go strings as byte sequences (skiplist.go / subscribe).  Go `<`, `<=` on
strings compare the UTF-8 bytes lexicographically.
-/

/-- A Go string as its UTF-8 byte sequence. -/
abbrev GoStr := List Nat

/-- Go `a < b` on strings: bytewise lexicographic. -/
def goStrLtb : GoStr → GoStr → Bool
  | [], [] => false
  | [], _ :: _ => true
  | _ :: _, [] => false
  | a :: as, b :: bs => if a < b then true else if b < a then false else goStrLtb as bs

/-- Go `a <= b` on strings. -/
def goStrLeb (a b : GoStr) : Bool := !goStrLtb b a

/-- `skiplist.STRINGMAX = string(rune(256))`: the UTF-8 encoding of code
point 256 is the two bytes 0xC4 0x80. -/
def STRINGMAXbytes : GoStr := [196, 128]

/-- `skiplist.STRINGMIN = ""`. -/
def STRINGMINbytes : GoStr := []

/-- The bottom-level `for current.key < key` walk of `find`/`query` over
the interior chain followed by the tail sentinel: `some stop` is the node
(or tail) the walk stops at; `none` models walking past the tail and
loading its nil next pointer (a crash in the Go code). -/
def walkStop (tailKey k : GoStr) : List GoStr → Option GoStr
  | [] => if goStrLtb tailKey k then none else some tailKey
  | h :: t => if goStrLtb h k then walkStop tailKey k t else some h

/-
The subscriber registry (part_007, package subscribe).  A subscriber's
delivery loop and the five-second enqueue timeout are timing-dependent and
not modelled; `SendUpdate`'s immediately decidable behaviour is: a closed
subscriber is skipped, a queue with room (capacity 100) gets the message,
and a full queue that no consumer drains leads to `Close` after the
timeout.
-/

/-- `subscribe.Subscriber` (interval bounds as Go strings, the pending
queue as the list of enqueued messages). -/
structure Subscriber where
  ID : String
  IntervalStart : GoStr
  IntervalEnd : GoStr
  Closed : Bool
  Updates : List GoStr

/-- `Subscriber.SendUpdate`. -/
def SendUpdate (s : Subscriber) (msg : GoStr) : Subscriber :=
  if s.Closed then s
  else if s.Updates.length < 100 then { s with Updates := s.Updates ++ [msg] }
  else { s with Closed := true }

/-- The interval filter of both notify methods:
`s.IntervalStart <= intervalComp && s.IntervalEnd >= intervalComp`. -/
def inInterval (s : Subscriber) (v : GoStr) : Bool :=
  goStrLeb s.IntervalStart v && goStrLeb v s.IntervalEnd

/-- `SubscriberManager.NotifySubscribersUpdate`: under the shared lock,
send the message to every registered subscriber whose interval contains
the value. -/
def NotifySubscribersUpdate (subs : List Subscriber) (msg : GoStr) (intervalComp : GoStr) :
    List Subscriber :=
  subs.map (fun s => if inInterval s intervalComp then SendUpdate s msg else s)

/-- `SubscriberManager.NotifySubscribersDelete`: identical filter; the
string message is converted to bytes. -/
def NotifySubscribersDelete (subs : List Subscriber) (msg : GoStr) (intervalComp : GoStr) :
    List Subscriber :=
  subs.map (fun s => if inInterval s intervalComp then SendUpdate s msg else s)

/-
The path resolver (part_000, package paths).  The resource tree is the
root collection holder: a map of database names to collections, where a
collection maps document names to documents and a document holds its
nested collections (every document implements ICollectionHolder).
-/

mutual

/-- A document as seen by the resolver: its nested collections. -/
inductive MDoc where
  | mk : List (String × MColl) → MDoc

/-- A collection as seen by the resolver: its documents. -/
inductive MColl where
  | mk : List (String × MDoc) → MColl

end

/-- Name lookup in a holder (Go map indexing / skip-list Find). -/
def lookupStr {A : Type} (m : List (String × A)) (nm : String) : Option A :=
  match m with
  | [] => none
  | (k, v) :: rest => if k = nm then some v else lookupStr rest nm

/-- `Collection.FindDoc`. -/
def MColl.findDoc : MColl → String → Option MDoc
  | .mk ds, nm => lookupStr ds nm

/-- `Document.GetColl` (through the ICollectionHolder cast, which always
succeeds for documents). -/
def MDoc.getColl : MDoc → String → Option MColl
  | .mk cs, nm => lookupStr cs nm

/-- Path resource/result codes (part_000). -/
def ERROR_BLANK_PATHNAME : Int := -103

/-- Internal error code. -/
def ERROR_INTERNAL : Int := -102

/-- Bad-slash error code. -/
def ERROR_BAD_SLASH : Int := -101

/-- No-version error code. -/
def ERROR_NO_VERSION : Int := -100

/-- Database resource code. -/
def RESOURCE_DB : Int := 1

/-- Collection resource code. -/
def RESOURCE_COLL : Int := 2

/-- Document resource code. -/
def RESOURCE_DOC : Int := 3

/-- Database put/delete resource code. -/
def RESOURCE_DB_PUT_DEL : Int := 4

/-- The `for i, resource := range resources` loop of `ParsePath`.
`i` is the current index, `total` the length of `resources`.  An early
`return` is `.error`; falling off the loop is `.ok` with the last
collection and document.  The `none` holder cases model Go nil
dereferences or failed casts, which are unreachable because each
iteration requires the previous lookup to have succeeded. -/
def parseLoop (finalRes : Int) (root : List (String × MColl)) :
    Nat → Nat → List String → Option MColl → Option MDoc →
    Except (Option MColl × Option MDoc × Int) (Option MColl × Option MDoc)
  | _, _, [], lastColl, lastDoc => .ok (lastColl, lastDoc)
  | i, total, resource :: rem, lastColl, lastDoc =>
    if resource = "" then
      if i ≠ total - 1 then .error (none, none, ERROR_BLANK_PATHNAME)
      else if i = 0 then .error (none, none, ERROR_BAD_SLASH)
      else
        match lastColl with
        | none => .error (none, none, ERROR_INTERNAL)
        | some c => .error (some c, none, finalRes)
    else
      if i = 0 then
        match lookupStr root resource with
        | some c => parseLoop finalRes root (i + 1) total rem (some c) lastDoc
        | none => .error (none, none, -finalRes)
      else if i % 2 = 1 then
        match lastColl with
        | none => .error (none, none, ERROR_INTERNAL)  -- Go: nil dereference
        | some c =>
          match c.findDoc resource with
          | some d => parseLoop finalRes root (i + 1) total rem lastColl (some d)
          | none => .error (none, none, -finalRes)
      else
        match lastDoc with
        | none => .error (none, none, ERROR_INTERNAL)  -- Go: failed cast keeps stale found
        | some d =>
          match d.getColl resource with
          | some c => parseLoop finalRes root (i + 1) total rem (some c) lastDoc
          | none => .error (none, none, -finalRes)

/-- The body of `paths.ParsePath` after the version cut and the split:
parity check, classification of the final resource, segment walk, and the
post-loop returns. -/
def parsePathRes (resources : List String) (root : List (String × MColl)) :
    Option MColl × Option MDoc × Int :=
  if resources.length = 0 then (none, none, ERROR_BAD_SLASH)  -- dead code, kept
  else if 1 < resources.length ∧ resources.length % 2 = 1 then
    (none, none, ERROR_BAD_SLASH)
  else
    let finalRes :=
      if resources.length = 1 then RESOURCE_DB_PUT_DEL
      else if resources.length = 2 ∧ resources.getD 1 "x" = "" then RESOURCE_DB
      else if 2 < resources.length ∧ (resources.getLast?.getD "x") = "" then RESOURCE_COLL
      else RESOURCE_DOC
    match parseLoop finalRes root 0 resources.length resources none none with
    | .error out => out
    | .ok (lastColl, lastDoc) =>
      if finalRes = RESOURCE_DB_PUT_DEL then
        match lastColl with
        | none => (none, none, ERROR_INTERNAL)
        | some c => (some c, none, finalRes)
      else if finalRes = RESOURCE_DOC then
        match lastDoc with
        | none => (none, none, ERROR_INTERNAL)
        | some d => (none, some d, finalRes)
      else (none, none, ERROR_INTERNAL)

/-- `paths.ParsePath`: check the `/v1/` prefix (`strings.CutPrefix`),
split the remainder on `/`, and process the segments. -/
def ParsePath (request : String) (root : List (String × MColl)) :
    Option MColl × Option MDoc × Int :=
  match request.toList with
  | '/' :: 'v' :: '1' :: '/' :: pathChars =>
    parsePathRes ((chSplit pathChars).map (fun g => String.mk g)) root
  | _ => (none, none, ERROR_NO_VERSION)

/-- Whether a request carries the mandatory `/v1/` prefix. -/
def hasV1 (request : String) : Bool :=
  match request.toList with
  | '/' :: 'v' :: '1' :: '/' :: _ => true
  | _ => false

/-- The lookup chain the `ParsePath` loop performs over non-empty
segments: starting at index `i`, resolve each segment (index 0 a database
name, odd indices document names, later even indices nested-collection
names) and return the final `(lastColl, lastDoc)`; `none` means some
lookup failed. -/
def walkSegs (root : List (String × MColl)) :
    Nat → List String → Option MColl → Option MDoc →
    Option (Option MColl × Option MDoc)
  | _, [], c, d => some (c, d)
  | i, r :: rem, c, d =>
    if i = 0 then
      match lookupStr root r with
      | some c2 => walkSegs root (i + 1) rem (some c2) d
      | none => none
    else if i % 2 = 1 then
      match c with
      | none => none
      | some cc =>
        match cc.findDoc r with
        | some dd => walkSegs root (i + 1) rem c (some dd)
        | none => none
    else
      match d with
      | none => none
      | some dd =>
        match dd.getColl r with
        | some cc => walkSegs root (i + 1) rem (some cc) d
        | none => none

/-
Theorems.  Each claim of the specification is settled by one theorem
below; supporting lemmas precede them.
-/

/-- A key just appended to an object is found by the existence scan. -/
theorem keyExists_append_self (m : List (String × JSON)) (s : String) (pv : JSON) :
    keyExists (m ++ [(s, pv)]) s = true := by
  induction m with
  | nil => simp [keyExists]
  | cons e es ih =>
    obtain ⟨k, v⟩ := e
    by_cases hk : k = s <;> simp [keyExists, hk, ih]

/-- The Map loop over entries without the target key copies the object
and reports the key as not found. -/
theorem visitEntries_no_match (op : String) (pv : JSON) (tgt s2 : String) (r2 : List String) :
    ∀ (es : List (String × JSON)), (∀ e ∈ es, e.1 ≠ tgt) →
      visitEntries op pv tgt s2 r2 es = .ok (es, false)
  | [], _ => rfl
  | (k, v) :: es, h => by
    have hk : ¬(k = tgt) := h (k, v) (List.mem_cons_self _ _)
    have ih := visitEntries_no_match op pv tgt s2 r2 es
      (fun e he => h e (List.mem_cons_of_mem _ he))
    simp [visitEntries, hk, ih]

/-- The Slice loop preserves the array length. -/
theorem visitElems_length (op : String) (pv : JSON) (tgt : Int) (s2 : String)
    (r2 : List String) :
    ∀ (l : List JSON) (i : Nat) (res : List JSON),
      visitElems op pv tgt s2 r2 i l = .ok res → res.length = l.length := by
  intro l
  induction l with
  | nil => intro i res h; cases h; rfl
  | cons v vs ih =>
    intro i res h
    simp only [visitElems] at h
    split at h
    · split at h
      · cases h
      · split at h
        · cases h
        next res2 hrest =>
          cases h
          simp [ih (i + 1) res2 hrest]
    · split at h
      · cases h
      next res2 hrest =>
        cases h
        simp [ih (i + 1) res2 hrest]

/-- A negative target index matches no element of the Slice loop, which
then returns the array unchanged without an error. -/
theorem visitElems_neg_target (op : String) (pv : JSON) (tgt : Int) (s2 : String)
    (r2 : List String) (hneg : tgt < 0) :
    ∀ (i : Nat) (l : List JSON), visitElems op pv tgt s2 r2 i l = .ok l := by
  intro i l
  induction l generalizing i with
  | nil => rfl
  | cons v vs ih =>
    have hne : ((i : Nat) : Int) ≠ tgt := by omega
    simp [visitElems, hne, ih]

mutual

theorem objectAdd_idem_val (pv : JSON) :
    ∀ (d : JSON) (s : String) (r : List String) (d' : JSON),
      acceptVisit "ObjectAdd" pv s r d = .ok d' →
      acceptVisit "ObjectAdd" pv s r d' = .ok d'
  | JSON.obj m, s, [], d', h => by
    simp only [acceptVisit] at h
    rw [if_pos trivial] at h
    cases hk : keyExists m s with
    | true =>
      rw [hk, if_pos rfl] at h
      cases h
      simp only [acceptVisit]
      rw [if_pos trivial, hk]
      rfl
    | false =>
      rw [hk, if_neg (by simp)] at h
      cases h
      simp only [acceptVisit]
      rw [if_pos trivial, keyExists_append_self m s pv]
      rfl
  | JSON.obj m, s, s2 :: r2, d', h => by
    simp only [acceptVisit] at h
    cases he : visitEntries "ObjectAdd" pv s s2 r2 m with
    | error e => rw [he] at h; cases h
    | ok rf =>
      obtain ⟨res, found⟩ := rf
      simp only [he] at h
      cases found with
      | false => simp at h
      | true =>
        simp at h
        subst h
        have he2 := objectAdd_idem_entries pv m s s2 r2 res true he
        simp only [acceptVisit, he2]
        simp
  | JSON.arr l, s, r, d', h => by
    simp only [acceptVisit] at h
    by_cases hterm : s = "" ∧ r = []
    · rw [if_pos hterm] at h
      rw [if_neg (by decide), if_neg (by decide)] at h
      cases h
    · rw [if_neg hterm] at h
      cases ha : goAtoi s with
      | none => simp only [ha] at h; cases h
      | some n =>
        simp only [ha] at h
        by_cases hb : ((l.length : Int) ≤ n)
        · rw [if_pos hb] at h; cases h
        · rw [if_neg hb] at h
          cases r with
          | nil => simp at h
          | cons s2 r2 =>
            simp only at h
            cases he : visitElems "ObjectAdd" pv n s2 r2 0 l with
            | error e => rw [he] at h; cases h
            | ok res =>
              simp only [he] at h
              simp at h
              subst h
              have hlen := visitElems_length "ObjectAdd" pv n s2 r2 l 0 res he
              have he2 := objectAdd_idem_elems pv l 0 res n s2 r2 he
              simp only [acceptVisit]
              rw [if_neg (by simp [hterm])]
              simp only [ha, hlen, if_neg hb, he2]
  | JSON.num x, s, r, d', h => by simp only [acceptVisit] at h; cases h
  | JSON.str x, s, r, d', h => by simp only [acceptVisit] at h; cases h
  | JSON.jbool x, s, r, d', h => by simp only [acceptVisit] at h; cases h
  | JSON.null, s, r, d', h => by simp only [acceptVisit] at h; cases h

theorem objectAdd_idem_entries (pv : JSON) :
    ∀ (es : List (String × JSON)) (tgt s2 : String) (r2 : List String)
      (res : List (String × JSON)) (found : Bool),
      visitEntries "ObjectAdd" pv tgt s2 r2 es = .ok (res, found) →
      visitEntries "ObjectAdd" pv tgt s2 r2 res = .ok (res, found)
  | [], tgt, s2, r2, res, found, h => by
    cases h
    rfl
  | (k, v) :: es, tgt, s2, r2, res, found, h => by
    simp only [visitEntries] at h
    by_cases hk : k = tgt
    · rw [if_pos hk] at h
      cases hv : acceptVisit "ObjectAdd" pv s2 r2 v with
      | error e => rw [hv] at h; cases h
      | ok nv =>
        simp only [hv] at h
        cases he : visitEntries "ObjectAdd" pv tgt s2 r2 es with
        | error e => rw [he] at h; cases h
        | ok rf =>
          obtain ⟨res1, f1⟩ := rf
          simp only [he] at h
          simp at h
          obtain ⟨h1, h2⟩ := h
          subst h1
          subst h2
          have hnv := objectAdd_idem_val pv v s2 r2 nv hv
          have hres1 := objectAdd_idem_entries pv es tgt s2 r2 res1 f1 he
          simp only [visitEntries, if_pos hk, hnv, hres1]
    · rw [if_neg hk] at h
      cases he : visitEntries "ObjectAdd" pv tgt s2 r2 es with
      | error e => rw [he] at h; cases h
      | ok rf =>
        obtain ⟨res1, f1⟩ := rf
        simp only [he] at h
        simp at h
        obtain ⟨h1, h2⟩ := h
        subst h1
        subst h2
        have hres1 := objectAdd_idem_entries pv es tgt s2 r2 res1 f1 he
        simp only [visitEntries, if_neg hk, hres1]

theorem objectAdd_idem_elems (pv : JSON) :
    ∀ (l : List JSON) (i : Nat) (res : List JSON) (tgt : Int) (s2 : String) (r2 : List String),
      visitElems "ObjectAdd" pv tgt s2 r2 i l = .ok res →
      visitElems "ObjectAdd" pv tgt s2 r2 i res = .ok res
  | [], i, res, tgt, s2, r2, h => by
    cases h
    rfl
  | v :: vs, i, res, tgt, s2, r2, h => by
    simp only [visitElems] at h
    by_cases hit : ((i : Nat) : Int) = tgt
    · rw [if_pos hit] at h
      cases hv : acceptVisit "ObjectAdd" pv s2 r2 v with
      | error e => rw [hv] at h; cases h
      | ok nv =>
        simp only [hv] at h
        cases he : visitElems "ObjectAdd" pv tgt s2 r2 (i + 1) vs with
        | error e => rw [he] at h; cases h
        | ok res1 =>
          simp only [he] at h
          simp at h
          subst h
          have hnv := objectAdd_idem_val pv v s2 r2 nv hv
          have hres1 := objectAdd_idem_elems pv vs (i + 1) res1 tgt s2 r2 he
          simp only [visitElems, if_pos hit, hnv, hres1]
    · rw [if_neg hit] at h
      cases he : visitElems "ObjectAdd" pv tgt s2 r2 (i + 1) vs with
      | error e => rw [he] at h; cases h
      | ok res1 =>
        simp only [he] at h
        simp at h
        subst h
        have hres1 := objectAdd_idem_elems pv vs (i + 1) res1 tgt s2 r2 he
        simp only [visitElems, if_neg hit, hres1]

end

/-- C10: for every patch whose path traverses a JSON array with a
negative integer intermediate segment, the engine returns success with
the array unchanged: the negative index passes the bounds check (which
rejects only index ≥ length), matches no element during the traversal,
and the patch is neither applied nor reported as an error. -/
theorem negative_array_index_silent_noop (op : String) (pv : JSON) (seg s2 : String)
    (r2 : List String) (n : Int) (l : List JSON)
    (hn : goAtoi seg = some n) (hneg : n < 0) :
    acceptVisit op pv seg (s2 :: r2) (JSON.arr l) = .ok (JSON.arr l) := by
  have hb : ¬((l.length : Int) ≤ n) := by
    have : (0 : Int) ≤ (l.length : Int) := Int.natCast_nonneg _
    omega
  simp [acceptVisit, hn, hb, visitElems_neg_target op pv n s2 r2 hneg]

/-- C10 witness: a patch path addressing index -1, then key x, on the
array `[1]`. -/
theorem negative_array_index_silent_noop_witness :
    goAtoi "-1" = some (-1) ∧ (-1 : Int) < 0 ∧
      acceptVisit "ObjectAdd" JSON.null "-1" ["x"] (JSON.arr [JSON.num 1])
        = .ok (JSON.arr [JSON.num 1]) :=
  ⟨rfl, by decide,
    negative_array_index_silent_noop "ObjectAdd" JSON.null "-1" "x" [] (-1) [JSON.num 1] rfl
      (by decide)⟩

/-- C7: applying an ObjectAdd patch to a JSON object whose terminal key
already exists succeeds and returns the object unchanged; a missing
terminal key is added with the given value; a missing intermediate key
fails with the key-not-found (path-not-found) error; and a successful
ObjectAdd application is idempotent. -/
theorem objectAdd_semantics_and_idempotence :
    (∀ (m : List (String × JSON)) (seg : String) (pv : JSON),
        keyExists m seg = true →
        acceptVisit "ObjectAdd" pv seg [] (JSON.obj m) = .ok (JSON.obj m))
  ∧ (∀ (m : List (String × JSON)) (seg : String) (pv : JSON),
        keyExists m seg = false →
        acceptVisit "ObjectAdd" pv seg [] (JSON.obj m)
          = .ok (JSON.obj (m ++ [(seg, pv)])))
  ∧ (∀ (m : List (String × JSON)) (seg s2 : String) (r2 : List String) (pv : JSON),
        (∀ e ∈ m, e.1 ≠ seg) →
        acceptVisit "ObjectAdd" pv seg (s2 :: r2) (JSON.obj m)
          = .error (some (JSON.obj m), "Key " ++ seg ++ " not found in map"))
  ∧ (∀ (d : JSON) (p : Patch) (d2 : JSON),
        p.Operation = "ObjectAdd" → ApplyPatch d p = .ok d2 → ApplyPatch d2 p = .ok d2) := by
  refine ⟨?_, ?_, ?_, ?_⟩
  · intro m seg pv hk
    simp only [acceptVisit]
    rw [if_pos trivial, hk]
    rfl
  · intro m seg pv hk
    simp only [acceptVisit]
    rw [if_pos trivial, hk]
    rfl
  · intro m seg s2 r2 pv habs
    have hvE := visitEntries_no_match "ObjectAdd" pv seg s2 r2 m habs
    simp only [acceptVisit, hvE]
    rfl
  · intro d p d2 hop happ
    unfold ApplyPatch at happ ⊢
    cases hnv : newVisitor p with
    | none => rw [hnv] at happ; cases happ
    | some sr =>
      obtain ⟨s, r⟩ := sr
      simp only [hnv] at happ ⊢
      rw [hop] at happ ⊢
      exact objectAdd_idem_val p.Value d s r d2 happ

/-- C7 witness: adding key `a` to `{}` once and then again. -/
theorem objectAdd_semantics_and_idempotence_witness :
    keyExists [("a", JSON.num 1)] "a" = true
  ∧ acceptVisit "ObjectAdd" JSON.null "a" [] (JSON.obj [("a", JSON.num 1)])
      = .ok (JSON.obj [("a", JSON.num 1)])
  ∧ ApplyPatch (JSON.obj []) ⟨"ObjectAdd", "/a", JSON.num 7⟩
      = .ok (JSON.obj [("a", JSON.num 7)])
  ∧ ApplyPatch (JSON.obj [("a", JSON.num 7)]) ⟨"ObjectAdd", "/a", JSON.num 7⟩
      = .ok (JSON.obj [("a", JSON.num 7)]) :=
  ⟨rfl, objectAdd_semantics_and_idempotence.1 [("a", JSON.num 1)] "a" JSON.null rfl, rfl,
   objectAdd_semantics_and_idempotence.2.2.2 (JSON.obj []) ⟨"ObjectAdd", "/a", JSON.num 7⟩
     (JSON.obj [("a", JSON.num 7)]) rfl rfl⟩

/-- C3: the claim that `ApplyPatch` never mutates its input and on error
returns the unchanged original fails on the code.  First conjunct: a
patch visiting a scalar returns `(nil, error)` — the value next to the
error is Go `nil` (`none`), not the original document.  Remaining
conjuncts: `ArrayRemove` removes through `append(slice[:i],
slice[i+1:]...)`, whose write-through on the shared backing array shifts
the caller's own array in place — after removing `1` from `[1, 2]` the
caller's slice reads `[2, 2]`, which differs from the original under the
engine's own deep equality. -/
theorem applyPatch_error_value_and_aliasing_divergence :
    ApplyPatch (JSON.jbool true) ⟨"ObjectAdd", "/a", JSON.null⟩
        = .error (none, "patching a boolean is not supported")
  ∧ ApplyPatch (JSON.arr [JSON.num 1, JSON.num 2]) ⟨"ArrayRemove", "/", JSON.num 1⟩
        = .ok (JSON.arr [JSON.num 2])
  ∧ arrayRemoveCallerView [JSON.num 1, JSON.num 2] (JSON.num 1) = [JSON.num 2, JSON.num 2]
  ∧ elemsEqual [JSON.num 2, JSON.num 2] [JSON.num 1, JSON.num 2] = false :=
  ⟨rfl, rfl, rfl, rfl⟩

/-- C2: `SkipList.Query` never retries.  When a write commits during the
collecting pass (counter 0 → 1) and the context is never cancelled, the
call blocks forever in the single-case select instead of re-running the
pass; when the context is cancelled it returns the cancellation error;
only an interference-free first pass returns results. -/
theorem query_blocks_instead_of_retrying :
    goQuery (QueryEnv.mk 0 1 ([] : List (Nat × Nat)) false) = QueryOutcome.blocksForever
  ∧ goQuery (QueryEnv.mk 0 1 ([] : List (Nat × Nat)) true) = QueryOutcome.cancelledErr
  ∧ goQuery (QueryEnv.mk 0 0 ([(1, 2)] : List (Nat × Nat)) false)
      = QueryOutcome.ok [(1, 2)] :=
  ⟨rfl, rfl, rfl⟩

/-- C1: the conditional PUT on an existing document diverges from the
claim.  The stored document has `lastModifiedAt = 100`; the request
document was created at 170.  With the matching timestamp `t = 100` the
code replies 400 (it compares `t` against the request document's own
metadata, not the stored document's) and leaves the store unchanged; with
no timestamp (`t = -1`) it replies 200 but the stored document still
carries the old body (`OverwriteBody` ran on the request document while
the callback returned `currentValue` unchanged). -/
theorem putDoc_conditional_overwrite_divergence :
    PutDocExisting (docNew "/db/doc1" "alice" (JSON.obj [("prop", JSON.num 100)]) 100)
        (docNew "/db/doc1" "bob" (JSON.obj [("prop", JSON.num 200)]) 170) 100 170
      = (400, docNew "/db/doc1" "alice" (JSON.obj [("prop", JSON.num 100)]) 100)
  ∧ PutDocExisting (docNew "/db/doc1" "alice" (JSON.obj [("prop", JSON.num 100)]) 100)
        (docNew "/db/doc1" "bob" (JSON.obj [("prop", JSON.num 200)]) 170) (-1) 170
      = (200, docNew "/db/doc1" "alice" (JSON.obj [("prop", JSON.num 100)]) 100) :=
  ⟨rfl, rfl⟩

/-- C5: a clean PATCH on `{"prop":100}` replies 200 with
`patchFailed = false` and the patched body stored, but the success
message is `"Patches applied successfully"` — not the `"patches
applied"` the claim (and handlers_test.go) state; a failing patch
replies 400 with the document unchanged. -/
theorem patchDoc_success_message_divergence :
    PatchDoc (docNew "/db1/doc1" "rexle" (JSON.obj [("prop", JSON.num 100)]) 10)
        [⟨"ObjectAdd", "/a", JSON.num 100⟩] (fun _ => true) "rexle" "/v1/db1/doc1" 20
      = (200,
         { Uri := "/v1/db1/doc1", PatchFailed := false,
           Message := "Patches applied successfully" },
         OverwriteBody (docNew "/db1/doc1" "rexle" (JSON.obj [("prop", JSON.num 100)]) 10)
           (JSON.obj [("prop", JSON.num 100), ("a", JSON.num 100)]) "rexle" 20)
  ∧ ("Patches applied successfully" == "patches applied") = false
  ∧ (PatchDoc (docNew "/db1/doc1" "rexle" (JSON.obj [("prop", JSON.num 100)]) 10)
        [⟨"ArrayAdd", "/b", JSON.num 100⟩] (fun _ => true) "rexle" "/v1/db1/doc1" 20).1 = 400
  ∧ (PatchDoc (docNew "/db1/doc1" "rexle" (JSON.obj [("prop", JSON.num 100)]) 10)
        [⟨"ArrayAdd", "/b", JSON.num 100⟩] (fun _ => true) "rexle" "/v1/db1/doc1" 20).2.2
      = docNew "/db1/doc1" "rexle" (JSON.obj [("prop", JSON.num 100)]) 10 :=
  ⟨rfl, by decide, rfl, rfl⟩

/-- Keys are unique in a strictly sorted node list. -/
theorem pairwise_key_unique {K V : Type} [LinearOrder K] :
    ∀ (l : List (SLNode K V)), l.Pairwise (fun a b => a.key < b.key) →
      ∀ n ∈ l, ∀ m ∈ l, n.key = m.key → n = m
  | [], _, n, hn, _, _, _ => absurd hn (List.not_mem_nil _)
  | x :: rest, hp, n, hn, m, hm, heq => by
    obtain ⟨hx, hrest⟩ := List.pairwise_cons.mp hp
    rcases List.mem_cons.mp hn with hn1 | hn2 <;>
      rcases List.mem_cons.mp hm with hm1 | hm2
    · rw [hn1, hm1]
    · exact absurd heq (by subst hn1; exact ne_of_lt (hx m hm2))
    · exact absurd heq.symm (by subst hm1; exact ne_of_lt (hx n hn2))
    · exact pairwise_key_unique rest hrest n hn2 m hm2 heq

/-- In a strictly sorted chain, the scan stops exactly at the node whose
key is the target. -/
theorem firstGE_mem_self {K V : Type} [LinearOrder K] :
    ∀ (l : List (SLNode K V)), l.Pairwise (fun a b => a.key < b.key) →
      ∀ n ∈ l, ∀ k, n.key = k → firstGE k l = some n
  | [], _, n, hn, _, _ => absurd hn (List.not_mem_nil _)
  | x :: rest, hp, n, hn, k, hk => by
    obtain ⟨hx, hrest⟩ := List.pairwise_cons.mp hp
    rcases List.mem_cons.mp hn with hn1 | hn2
    · subst hn1
      simp [firstGE, hk]
    · have hlt : x.key < k := hk ▸ hx n hn2
      simp [firstGE, hlt, firstGE_mem_self rest hrest n hn2 k hk]

/-- The scan result is a member of the chain. -/
theorem firstGE_some_mem {K V : Type} [LinearOrder K] :
    ∀ (l : List (SLNode K V)) (k : K) (n : SLNode K V), firstGE k l = some n → n ∈ l
  | [], k, n, h => by cases h
  | x :: rest, k, n, h => by
    by_cases hlt : x.key < k
    · simp only [firstGE, if_pos hlt] at h
      exact List.mem_cons_of_mem _ (firstGE_some_mem rest k n h)
    · simp only [firstGE, if_neg hlt] at h
      cases h
      exact List.mem_cons_self _ _

/-- Chain membership. -/
theorem mem_chainAt {K V : Type} (s : SLState K V) (l : Nat) (n : SLNode K V) :
    n ∈ chainAt s l ↔ n ∈ s.nodes ∧ l ≤ n.topLevel := by
  simp [chainAt, List.mem_filter]

/-- Chains of a well-formed state are strictly sorted. -/
theorem chainAt_pairwise {K V : Type} [LinearOrder K] (s : SLState K V) (hInv : SLInv s)
    (l : Nat) :
    (chainAt s l).Pairwise (fun a b => a.key < b.key) :=
  hInv.sorted.sublist (List.filter_sublist _)

/-- succKey hits the target exactly when a node with that key lives at
that level (for targets below the tail key). -/
theorem succKeyAt_eq_iff {K V : Type} [LinearOrder K] (s : SLState K V) (hInv : SLInv s)
    (l : Nat) (k : K) (hk : k < s.maxKey) :
    succKeyAt s l k = k ↔ ∃ n ∈ s.nodes, n.key = k ∧ l ≤ n.topLevel := by
  constructor
  · intro h
    unfold succKeyAt succAt at h
    cases hf : firstGE k (chainAt s l) with
    | none => rw [hf] at h; exact absurd h (ne_of_gt hk)
    | some n =>
      rw [hf] at h
      have hmem := (mem_chainAt s l n).mp (firstGE_some_mem _ k n hf)
      exact ⟨n, hmem.1, h, hmem.2⟩
  · rintro ⟨n, hmem, hkey, hlev⟩
    have hchain : n ∈ chainAt s l := (mem_chainAt s l n).mpr ⟨hmem, hlev⟩
    have hfg := firstGE_mem_self (chainAt s l) (chainAt_pairwise s hInv l) n hchain k hkey
    unfold succKeyAt succAt
    rw [hfg]
    exact hkey

/-- When a node with the key exists, the top-down scan reports its
topLevel (the highest level carrying the node). -/
theorem levelFoundFrom_of_node {K V : Type} [LinearOrder K] (s : SLState K V)
    (hInv : SLInv s) (k : K) (hk : k < s.maxKey) (n : SLNode K V) (hmem : n ∈ s.nodes)
    (hkey : n.key = k) :
    ∀ L : Nat, n.topLevel ≤ L → levelFoundFrom s k L = some n.topLevel := by
  intro L
  induction L with
  | zero =>
    intro hL
    have h0 : n.topLevel = 0 := Nat.le_zero.mp hL
    have : succKeyAt s 0 k = k :=
      (succKeyAt_eq_iff s hInv 0 k hk).mpr ⟨n, hmem, hkey, by omega⟩
    simp [levelFoundFrom, this, h0]
  | succ L ih =>
    intro hL
    by_cases htop : n.topLevel = L + 1
    · have : succKeyAt s (L + 1) k = k :=
        (succKeyAt_eq_iff s hInv (L + 1) k hk).mpr ⟨n, hmem, hkey, by omega⟩
      simp [levelFoundFrom, this, htop]
    · have hle : n.topLevel ≤ L := by omega
      have hne : ¬(succKeyAt s (L + 1) k = k) := by
        intro hc
        obtain ⟨m, hm, hmk, hml⟩ := (succKeyAt_eq_iff s hInv (L + 1) k hk).mp hc
        have hmn : m = n := pairwise_key_unique s.nodes hInv.sorted m hm n hmem (hmk.trans hkey.symm)
        rw [hmn] at hml
        omega
      simp [levelFoundFrom, hne, ih hle]

/-- When no node carries the key, the scan reports nothing at any level. -/
theorem levelFoundFrom_none {K V : Type} [LinearOrder K] (s : SLState K V)
    (hInv : SLInv s) (k : K) (hk : k < s.maxKey) (habs : ∀ n ∈ s.nodes, n.key ≠ k) :
    ∀ L : Nat, levelFoundFrom s k L = none := by
  intro L
  have hne : ∀ l : Nat, ¬(succKeyAt s l k = k) := by
    intro l hc
    obtain ⟨m, hm, hmk, _⟩ := (succKeyAt_eq_iff s hInv l k hk).mp hc
    exact habs m hm hmk
  induction L with
  | zero => simp [levelFoundFrom, hne 0]
  | succ L ih => simp [levelFoundFrom, hne (L + 1), ih]

/-- Reference lookup of the projection finds the node's value. -/
theorem refLookup_proj_of_node {K V : Type} [LinearOrder K] :
    ∀ (nodes : List (SLNode K V)), nodes.Pairwise (fun a b => a.key < b.key) →
      ∀ n ∈ nodes, ∀ k, n.key = k →
        refLookup k (nodes.map (fun m => (m.key, m.value))) = some n.value
  | [], _, n, hn, _, _ => absurd hn (List.not_mem_nil _)
  | x :: rest, hp, n, hn, k, hk => by
    obtain ⟨hx, hrest⟩ := List.pairwise_cons.mp hp
    rcases List.mem_cons.mp hn with hn1 | hn2
    · subst hn1
      simp [refLookup, hk]
    · have hlt : x.key < k := hk ▸ hx n hn2
      have hne : ¬(x.key = k) := ne_of_lt hlt
      simp [refLookup, hne, refLookup_proj_of_node rest hrest n hn2 k hk]

/-- Reference lookup of the projection misses absent keys. -/
theorem refLookup_proj_none {K V : Type} [LinearOrder K] (k : K) :
    ∀ (nodes : List (SLNode K V)), (∀ n ∈ nodes, n.key ≠ k) →
      refLookup k (nodes.map (fun m => (m.key, m.value))) = none
  | [], _ => rfl
  | x :: rest, habs => by
    have hx : ¬(x.key = k) := habs x (List.mem_cons_self _ _)
    simp [refLookup, hx,
      refLookup_proj_none k rest (fun n hn => habs n (List.mem_cons_of_mem _ hn))]

/-- Projection commutes with the in-place value update. -/
theorem proj_updateValue {K V : Type} [LinearOrder K] (k : K) (nv : V) :
    ∀ (nodes : List (SLNode K V)),
      (updateValue nodes k nv).map (fun m => (m.key, m.value))
        = refUpdate k nv (nodes.map (fun m => (m.key, m.value)))
  | [] => rfl
  | x :: rest => by
    by_cases hx : x.key = k
    · simp [updateValue, refUpdate, hx, proj_updateValue k nv rest]
      simpa [updateValue, refUpdate] using proj_updateValue k nv rest
    · simp [updateValue, refUpdate, hx]
      simpa [updateValue, refUpdate] using proj_updateValue k nv rest

/-- Projection commutes with sorted insertion. -/
theorem proj_insertNode {K V : Type} [LinearOrder K] (x : SLNode K V) :
    ∀ (nodes : List (SLNode K V)),
      (insertNode x nodes).map (fun m => (m.key, m.value))
        = refInsert x.key x.value (nodes.map (fun m => (m.key, m.value)))
  | [] => rfl
  | n :: rest => by
    by_cases hn : n.key < x.key
    · simp [insertNode, refInsert, hn, proj_insertNode x rest]
    · simp [insertNode, refInsert, hn]

/-- Projection commutes with node removal. -/
theorem proj_removeNode {K V : Type} [LinearOrder K] (k : K) :
    ∀ (nodes : List (SLNode K V)),
      (removeNode k nodes).map (fun m => (m.key, m.value))
        = refErase k (nodes.map (fun m => (m.key, m.value)))
  | [] => rfl
  | n :: rest => by
    by_cases hn : n.key = k
    · simp [removeNode, refErase, hn]
    · simp [removeNode, refErase, hn, proj_removeNode k rest]

/-- The in-place value update keeps each node's key and topLevel. -/
theorem updateValue_key {K V : Type} [LinearOrder K] (k : K) (nv : V) (n : SLNode K V) :
    (if n.key = k then { n with value := nv } else n).key = n.key := by
  by_cases h : n.key = k <;> simp [h]

/-- The in-place value update keeps each node's topLevel. -/
theorem updateValue_top {K V : Type} [LinearOrder K] (k : K) (nv : V) (n : SLNode K V) :
    (if n.key = k then { n with value := nv } else n).topLevel = n.topLevel := by
  by_cases h : n.key = k <;> simp [h]

/-- Invariant preservation for the update arm of Upsert. -/
theorem SLInv_updateValue {K V : Type} [LinearOrder K] (s : SLState K V) (hInv : SLInv s)
    (k : K) (nv : V) :
    SLInv { s with nodes := updateValue s.nodes k nv } := by
  constructor
  · unfold updateValue
    rw [List.pairwise_map]
    refine List.Pairwise.imp ?_ hInv.sorted
    intro a b hab
    rw [updateValue_key k nv a, updateValue_key k nv b]
    exact hab
  · intro n hn
    unfold updateValue at hn
    obtain ⟨n0, hn0, heq⟩ := List.mem_map.mp hn
    have : n.key = n0.key := by rw [← heq]; exact updateValue_key k nv n0
    rw [this]
    exact hInv.below n0 hn0
  · intro n hn
    unfold updateValue at hn
    obtain ⟨n0, hn0, heq⟩ := List.mem_map.mp hn
    have : n.topLevel = n0.topLevel := by rw [← heq]; exact updateValue_top k nv n0
    rw [this]
    exact hInv.levels n0 hn0

/-- Membership in an inserted list. -/
theorem mem_insertNode {K V : Type} [LinearOrder K] (x : SLNode K V) :
    ∀ (nodes : List (SLNode K V)) (m : SLNode K V),
      m ∈ insertNode x nodes → m = x ∨ m ∈ nodes
  | [], m, hm => by simpa [insertNode] using hm
  | n :: rest, m, hm => by
    by_cases hn : n.key < x.key
    · simp only [insertNode, if_pos hn] at hm
      rcases List.mem_cons.mp hm with h1 | h2
      · exact Or.inr (h1 ▸ List.mem_cons_self _ _)
      · rcases mem_insertNode x rest m h2 with h3 | h4
        · exact Or.inl h3
        · exact Or.inr (List.mem_cons_of_mem _ h4)
    · simp only [insertNode, if_neg hn] at hm
      rcases List.mem_cons.mp hm with h1 | h2
      · exact Or.inl h1
      · exact Or.inr h2

/-- Sorted insertion of a fresh key preserves strict sortedness. -/
theorem insertNode_pairwise {K V : Type} [LinearOrder K] (x : SLNode K V) :
    ∀ (nodes : List (SLNode K V)),
      nodes.Pairwise (fun a b => a.key < b.key) →
      (∀ n ∈ nodes, n.key ≠ x.key) →
      (insertNode x nodes).Pairwise (fun a b => a.key < b.key)
  | [], _, _ => List.pairwise_singleton _ _
  | n :: rest, hp, hfresh => by
    obtain ⟨hn, hrest⟩ := List.pairwise_cons.mp hp
    by_cases hlt : n.key < x.key
    · simp only [insertNode, if_pos hlt]
      refine List.pairwise_cons.mpr ⟨?_, ?_⟩
      · intro m hm
        rcases mem_insertNode x rest m hm with h1 | h2
        · rw [h1]; exact hlt
        · exact hn m h2
      · exact insertNode_pairwise x rest hrest
          (fun m hm => hfresh m (List.mem_cons_of_mem _ hm))
    · simp only [insertNode, if_neg hlt]
      have hxn : x.key < n.key :=
        lt_of_le_of_ne (not_lt.mp hlt) (Ne.symm (hfresh n (List.mem_cons_self _ _)))
      refine List.pairwise_cons.mpr ⟨?_, hp⟩
      intro m hm
      rcases List.mem_cons.mp hm with h1 | h2
      · rw [h1]; exact hxn
      · exact lt_trans hxn (hn m h2)

/-- removeNode yields a sublist. -/
theorem removeNode_sublist {K V : Type} [LinearOrder K] (k : K) :
    ∀ (nodes : List (SLNode K V)), (removeNode k nodes).Sublist nodes
  | [] => List.Sublist.refl _
  | n :: rest => by
    by_cases hn : n.key = k
    · simp only [removeNode, if_pos hn]
      exact List.sublist_cons_self _ _
    · simp only [removeNode, if_neg hn]
      exact List.Sublist.cons₂ _ (removeNode_sublist k rest)

/-- `find` outcome when a node with the key is present. -/
theorem levelFound_succAt_of_node {K V : Type} [LinearOrder K] (s : SLState K V)
    (hInv : SLInv s) (k : K) (hk : k < s.maxKey) (n : SLNode K V) (hmem : n ∈ s.nodes)
    (hkey : n.key = k) :
    levelFound s k = some n.topLevel ∧ succAt s n.topLevel k = some n := by
  constructor
  · exact levelFoundFrom_of_node s hInv k hk n hmem hkey s.headTop (hInv.levels n hmem)
  · have hchain : n ∈ chainAt s n.topLevel :=
      (mem_chainAt s n.topLevel n).mpr ⟨hmem, le_refl _⟩
    exact firstGE_mem_self (chainAt s n.topLevel) (chainAt_pairwise s hInv n.topLevel)
      n hchain k hkey

/-- One-step coupling: the skip-list step and the reference-map step
agree through the projection and preserve well-formedness and the
state's fixed fields. -/
theorem SLStep_coupling {K V E : Type} [LinearOrder K] (s : SLState K V) (op : SLOp K V E)
    (hInv : SLInv s) (hk : op.key < s.maxKey) :
    SLInv (SLStep s op)
    ∧ projKV (SLStep s op) = RefStep s.zeroV (projKV s) op
    ∧ (SLStep s op).maxKey = s.maxKey
    ∧ (SLStep s op).zeroV = s.zeroV
    ∧ (SLStep s op).headTop = s.headTop := by
  cases op with
  | upsert k lvl check =>
    simp only [SLOp.key] at hk
    by_cases hex : ∃ n ∈ s.nodes, n.key = k
    · obtain ⟨n, hmem, hkey⟩ := hex
      obtain ⟨hlf, hsucc⟩ := levelFound_succAt_of_node s hInv k hk n hmem hkey
      have hlook : refLookup k (projKV s) = some n.value :=
        refLookup_proj_of_node s.nodes hInv.sorted n hmem k hkey
      cases hc : check k n.value true with
      | error e =>
        have hstep : SLStep s (SLOp.upsert k lvl check) = s := by
          simp only [SLStep, SLUpsert, hlf, hsucc, hc]
        have href : RefStep s.zeroV (projKV s) (SLOp.upsert k lvl check) = projKV s := by
          simp only [RefStep, hlook, hc]
        rw [hstep, href]
        exact ⟨hInv, rfl, rfl, rfl, rfl⟩
      | ok nv =>
        have hstep : SLStep s (SLOp.upsert k lvl check)
            = { s with nodes := updateValue s.nodes k nv } := by
          simp only [SLStep, SLUpsert, hlf, hsucc, hc]
        have href : RefStep s.zeroV (projKV s) (SLOp.upsert k lvl check)
            = refUpdate k nv (projKV s) := by
          simp only [RefStep, hlook, hc]
        rw [hstep, href]
        exact ⟨SLInv_updateValue s hInv k nv, proj_updateValue k nv s.nodes, rfl, rfl, rfl⟩
    · push_neg at hex
      have hlf : levelFound s k = none := levelFoundFrom_none s hInv k hk hex s.headTop
      have hlook : refLookup k (projKV s) = none := refLookup_proj_none k s.nodes hex
      cases hc : check k s.zeroV false with
      | error e =>
        have hstep : SLStep s (SLOp.upsert k lvl check) = s := by
          simp only [SLStep, SLUpsert, hlf, hc]
        have href : RefStep s.zeroV (projKV s) (SLOp.upsert k lvl check) = projKV s := by
          simp only [RefStep, hlook, hc]
        rw [hstep, href]
        exact ⟨hInv, rfl, rfl, rfl, rfl⟩
      | ok nv =>
        have hstep : SLStep s (SLOp.upsert k lvl check)
            = { s with nodes := insertNode ⟨k, nv, min lvl s.headTop⟩ s.nodes } := by
          simp only [SLStep, SLUpsert, hlf, hc]
        have href : RefStep s.zeroV (projKV s) (SLOp.upsert k lvl check)
            = refInsert k nv (projKV s) := by
          simp only [RefStep, hlook, hc]
        rw [hstep, href]
        refine ⟨?_, proj_insertNode ⟨k, nv, min lvl s.headTop⟩ s.nodes, rfl, rfl, rfl⟩
        constructor
        · exact insertNode_pairwise _ s.nodes hInv.sorted
            (fun m hm => fun hc2 => hex m hm hc2)
        · intro m hm
          rcases mem_insertNode _ s.nodes m hm with h1 | h2
          · rw [h1]; exact hk
          · exact hInv.below m h2
        · intro m hm
          rcases mem_insertNode _ s.nodes m hm with h1 | h2
          · rw [h1]; exact min_le_right lvl s.headTop
          · exact hInv.levels m h2
  | remove k =>
    simp only [SLOp.key] at hk
    by_cases hex : ∃ n ∈ s.nodes, n.key = k
    · obtain ⟨n, hmem, hkey⟩ := hex
      obtain ⟨hlf, hsucc⟩ := levelFound_succAt_of_node s hInv k hk n hmem hkey
      have hlook : refLookup k (projKV s) = some n.value :=
        refLookup_proj_of_node s.nodes hInv.sorted n hmem k hkey
      have hstep : SLStep s (SLOp.remove k : SLOp K V E) = { s with nodes := removeNode k s.nodes } := by
        simp only [SLStep, SLRemove, hlf, hsucc]
        rw [if_neg (by simp)]
      have href : RefStep s.zeroV (projKV s) (SLOp.remove k : SLOp K V E) = refErase k (projKV s) := by
        simp only [RefStep, hlook]
      rw [hstep, href]
      refine ⟨?_, proj_removeNode k s.nodes, rfl, rfl, rfl⟩
      constructor
      · exact hInv.sorted.sublist (removeNode_sublist k s.nodes)
      · intro m hm
        exact hInv.below m ((removeNode_sublist k s.nodes).mem hm)
      · intro m hm
        exact hInv.levels m ((removeNode_sublist k s.nodes).mem hm)
    · push_neg at hex
      have hlf : levelFound s k = none := levelFoundFrom_none s hInv k hk hex s.headTop
      have hlook : refLookup k (projKV s) = none := refLookup_proj_none k s.nodes hex
      have hstep : SLStep s (SLOp.remove k : SLOp K V E) = s := by
        simp only [SLStep, SLRemove, hlf]
      have href : RefStep s.zeroV (projKV s) (SLOp.remove k : SLOp K V E) = projKV s := by
        simp only [RefStep, hlook]
      rw [hstep, href]
      exact ⟨hInv, rfl, rfl, rfl, rfl⟩

/-- `Find` agrees with the reference lookup through the projection. -/
theorem SLFind_refLookup {K V : Type} [LinearOrder K] (s : SLState K V) (hInv : SLInv s)
    (k : K) (hk : k < s.maxKey) :
    SLFind s k = (match refLookup k (projKV s) with
                  | some v => (v, true)
                  | none => (s.zeroV, false)) := by
  by_cases hex : ∃ n ∈ s.nodes, n.key = k
  · obtain ⟨n, hmem, hkey⟩ := hex
    obtain ⟨hlf, hsucc⟩ := levelFound_succAt_of_node s hInv k hk n hmem hkey
    have hlook : refLookup k (projKV s) = some n.value :=
      refLookup_proj_of_node s.nodes hInv.sorted n hmem k hkey
    rw [hlook]
    simp only [SLFind, hlf, hsucc]
  · push_neg at hex
    have hlf : levelFound s k = none := levelFoundFrom_none s hInv k hk hex s.headTop
    have hlook : refLookup k (projKV s) = none := refLookup_proj_none k s.nodes hex
    rw [hlook]
    simp only [SLFind, hlf]

/-- Run-level coupling. -/
theorem SLRun_coupling {K V E : Type} [LinearOrder K] :
    ∀ (ops : List (SLOp K V E)) (s : SLState K V), SLInv s →
      (∀ op ∈ ops, SLOp.key op < s.maxKey) →
      SLInv (SLRun s ops)
      ∧ projKV (SLRun s ops) = RefRun s.zeroV (projKV s) ops
      ∧ (SLRun s ops).maxKey = s.maxKey
      ∧ (SLRun s ops).zeroV = s.zeroV
  | [], s, hInv, _ => ⟨hInv, rfl, rfl, rfl⟩
  | op :: rest, s, hInv, hops => by
    obtain ⟨hInv1, hproj1, hmax1, hzero1, _⟩ :=
      SLStep_coupling s op hInv (hops op (List.mem_cons_self _ _))
    have hrest : ∀ o ∈ rest, SLOp.key o < (SLStep s op).maxKey := by
      intro o ho
      rw [hmax1]
      exact hops o (List.mem_cons_of_mem _ ho)
    obtain ⟨hInv2, hproj2, hmax2, hzero2⟩ := SLRun_coupling rest (SLStep s op) hInv1 hrest
    have hrun : SLRun s (op :: rest) = SLRun (SLStep s op) rest := rfl
    exact ⟨by rw [hrun]; exact hInv2,
           by rw [hrun, hproj2, hproj1, hzero1]; rfl,
           by rw [hrun, hmax2, hmax1],
           by rw [hrun, hzero2, hzero1]⟩

/-- C4 (amended): for keys strictly below the tail sentinel key (both the
queried key and every operation key), a skip list built by `New` and
driven by any finite sequence of Upserts (with adversarial level draws
and check callbacks) and Removes is observationally equivalent to the
reference ordered map: `Find` returns exactly the reference lookup, i.e.
the value of the last successful Upsert not followed by a successful
Remove, and reports absence otherwise. -/
theorem skiplist_refines_ordered_map {K V E : Type} [LinearOrder K]
    (minK maxK : K) (maxLevel : Nat) (zero : V) (ops : List (SLOp K V E)) (k : K)
    (hk : k < maxK) (hops : ∀ op ∈ ops, SLOp.key op < maxK) :
    SLFind (SLRun (slNew minK maxK maxLevel zero) ops) k
      = (match refLookup k (RefRun zero [] ops) with
         | some v => (v, true)
         | none => (zero, false)) := by
  have hInv0 : SLInv (slNew minK maxK maxLevel zero : SLState K V) := by
    refine ⟨?_, ?_, ?_⟩ <;> simp [slNew]
  obtain ⟨hInv, hproj, hmax, hzero⟩ :=
    SLRun_coupling ops (slNew minK maxK maxLevel zero) hInv0 hops
  have hk2 : k < (SLRun (slNew minK maxK maxLevel zero) ops).maxKey := by
    rw [hmax]; exact hk
  rw [SLFind_refLookup _ hInv k hk2, hproj, hzero]
  rfl

/-- C4 counterexample: on a freshly created skip list with sentinel keys
0 and 10, after no operations at all, `Find 10` reports the key as
present with the zero value (the tail sentinel is fully linked and
unmarked, and `find` sees its key), while the reference map of the claim
reports absence. -/
theorem skiplist_find_max_sentinel_cex :
    SLFind (SLRun (slNew 0 10 3 0) ([] : List (SLOp Nat Nat String))) 10 = (0, true)
  ∧ refLookup 10 (RefRun 0 [] ([] : List (SLOp Nat Nat String))) = none :=
  ⟨rfl, rfl⟩

/-- C4 witness: insert 3, remove it, insert it again with value 7. -/
theorem skiplist_refines_ordered_map_witness :
    (3 : Nat) < 100
  ∧ SLFind (SLRun (slNew 0 100 5 0)
        [SLOp.upsert 3 2 (fun _ _ _ => (Except.ok 30 : Except String Nat)),
         SLOp.remove 3,
         SLOp.upsert 3 1 (fun _ _ _ => (Except.ok 7 : Except String Nat))]) 3
      = (match refLookup 3 (RefRun 0 []
          [SLOp.upsert 3 2 (fun _ _ _ => (Except.ok 30 : Except String Nat)),
           SLOp.remove 3,
           SLOp.upsert 3 1 (fun _ _ _ => (Except.ok 7 : Except String Nat))]) with
         | some v => (v, true)
         | none => ((0 : Nat), false)) :=
  ⟨by decide,
   skiplist_refines_ordered_map 0 100 5 0
     [SLOp.upsert 3 2 (fun _ _ _ => (Except.ok 30 : Except String Nat)),
      SLOp.remove 3,
      SLOp.upsert 3 1 (fun _ _ _ => (Except.ok 7 : Except String Nat))] 3
     (by decide)
     (by intro op hop; fin_cases hop <;> decide)⟩

theorem goStrLeb_nil (k : GoStr) : goStrLeb STRINGMINbytes k = true := by
  cases k <;> rfl

theorem goStrLeb_ascii_max (k : GoStr) (h : ∀ b ∈ k, b < 128) :
    goStrLeb k STRINGMAXbytes = true := by
  cases k with
  | nil => rfl
  | cons b bs =>
    have hb := h b (List.mem_cons_self _ _)
    unfold goStrLeb STRINGMAXbytes goStrLtb
    rw [if_neg (by omega), if_pos (by omega)]
    rfl

theorem walkStop_stops (tailKey k : GoStr) (hk : goStrLtb tailKey k = false) :
    ∀ chain : List GoStr, walkStop tailKey k chain ≠ none
  | [] => by simp [walkStop, hk]
  | h :: t => by
    by_cases hlt : goStrLtb h k = true
    · simpa [walkStop, hlt] using walkStop_stops tailKey k hk t
    · simp [walkStop, hlt]

theorem notify_update_getD :
    ∀ (subs : List Subscriber) (i : Nat), i < subs.length → ∀ (msg v : GoStr) (dflt : Subscriber),
      (NotifySubscribersUpdate subs msg v).getD i dflt
        = (if inInterval (subs.getD i dflt) v then SendUpdate (subs.getD i dflt) msg
           else subs.getD i dflt)
  | [], i, hi => absurd hi (by simp)
  | s :: rest, 0, _ => by
    intro msg v dflt
    simp [NotifySubscribersUpdate]
  | s :: rest, i + 1, hi => by
    intro msg v dflt
    simp only [NotifySubscribersUpdate, List.map_cons, List.getD_cons_succ]
    exact notify_update_getD rest i (by simpa using hi) msg v dflt

theorem notify_delete_getD :
    ∀ (subs : List Subscriber) (i : Nat), i < subs.length → ∀ (msg v : GoStr) (dflt : Subscriber),
      (NotifySubscribersDelete subs msg v).getD i dflt
        = (if inInterval (subs.getD i dflt) v then SendUpdate (subs.getD i dflt) msg
           else subs.getD i dflt)
  | [], i, hi => absurd hi (by simp)
  | s :: rest, 0, _ => by
    intro msg v dflt
    simp [NotifySubscribersDelete]
  | s :: rest, i + 1, hi => by
    intro msg v dflt
    simp only [NotifySubscribersDelete, List.map_cons, List.getD_cons_succ]
    exact notify_delete_getD rest i (by simpa using hi) msg v dflt

theorem sendUpdate_queue (s : Subscriber) (msg : GoStr) (v : GoStr) :
    (if inInterval s v then SendUpdate s msg else s).Updates
      = (if inInterval s v = true ∧ s.Closed = false ∧ s.Updates.length < 100
         then s.Updates ++ [msg] else s.Updates) := by
  by_cases h1 : inInterval s v = true
  · rw [if_pos h1]
    by_cases h2 : s.Closed
    · simp [SendUpdate, h2]
    · by_cases h3 : s.Updates.length < 100
      · simp [SendUpdate, h2, h3, h1]
      · simp [SendUpdate, h2, h3]
  · rw [if_neg h1]
    simp [h1]

/-- C8 counterexample: the three-byte string `string(rune(256)) + "A"`
(bytes 0xC4 0x80 0x41) is a storable key strictly greater than
`STRINGMAX` under Go's bytewise string order, and the bottom-level walk
for it runs past the tail sentinel onto its nil next pointer. -/
theorem stringmax_not_a_maximum_cex :
    goStrLtb STRINGMAXbytes [196, 128, 65] = true
  ∧ goStrLeb [196, 128, 65] STRINGMAXbytes = false
  ∧ walkStop STRINGMAXbytes [196, 128, 65] [] = none :=
  ⟨rfl, rfl, rfl⟩

/-- C8 (amended): for every ASCII key (all bytes below 128), the empty
string is a lower bound and `STRINGMAX = string(rune(256))` an upper
bound of Go's bytewise string order, and the bottom-level
`for current.key < key` walk of `find`/`query` over any chain stops at a
node or at the tail sentinel without following a nil pointer. -/
theorem stringmax_bounds_ascii_keys (k : GoStr) (hascii : ∀ b ∈ k, b < 128) :
    goStrLeb STRINGMINbytes k = true
  ∧ goStrLeb k STRINGMAXbytes = true
  ∧ ∀ chain : List GoStr, walkStop STRINGMAXbytes k chain ≠ none := by
  refine ⟨goStrLeb_nil k, goStrLeb_ascii_max k hascii, ?_⟩
  have hlt : goStrLtb STRINGMAXbytes k = false := by
    have hle := goStrLeb_ascii_max k hascii
    unfold goStrLeb at hle
    cases hx : goStrLtb STRINGMAXbytes k
    · rfl
    · rw [hx] at hle; cases hle
  exact walkStop_stops STRINGMAXbytes k hlt

/-- C8 witness: the key `"hi"` (bytes 104, 105). -/
theorem stringmax_bounds_ascii_keys_witness :
    (∀ b ∈ ([104, 105] : GoStr), b < 128)
  ∧ (goStrLeb STRINGMINbytes [104, 105] = true
     ∧ goStrLeb [104, 105] STRINGMAXbytes = true
     ∧ ∀ chain : List GoStr, walkStop STRINGMAXbytes [104, 105] chain ≠ none) :=
  ⟨by decide, stringmax_bounds_ascii_keys [104, 105] (by decide)⟩

/-- C9 counterexample: a still-registered but closed subscriber whose
interval `[a, z]` contains the value `h` receives no enqueued message
from either notify method, so the notifies do not enqueue to exactly the
in-range registered subscribers. -/
theorem notify_closed_subscriber_cex :
    inInterval ⟨"s1", [97], [122], true, []⟩ [104] = true
  ∧ NotifySubscribersUpdate [⟨"s1", [97], [122], true, []⟩] [1] [104]
      = [⟨"s1", [97], [122], true, []⟩]
  ∧ NotifySubscribersDelete [⟨"s1", [97], [122], true, []⟩] [1] [104]
      = [⟨"s1", [97], [122], true, []⟩] :=
  ⟨rfl, rfl, rfl⟩

/-- C9 (amended): both notify methods enqueue the message to exactly
those registered subscribers that are within the inclusive interval
bound check `IntervalStart ≤ v ∧ v ≤ IntervalEnd`, are not closed, and
whose queue has room; every other subscriber's queue is untouched — in
particular a subscriber receives an event for `v` only if its interval
contains `v`. -/
theorem notify_enqueue_characterization (subs : List Subscriber) (msg v : GoStr)
    (dflt : Subscriber) (i : Nat) (hi : i < subs.length) :
    ((NotifySubscribersUpdate subs msg v).getD i dflt).Updates
      = (if inInterval (subs.getD i dflt) v = true ∧ (subs.getD i dflt).Closed = false
            ∧ (subs.getD i dflt).Updates.length < 100
         then (subs.getD i dflt).Updates ++ [msg]
         else (subs.getD i dflt).Updates)
  ∧ ((NotifySubscribersDelete subs msg v).getD i dflt).Updates
      = (if inInterval (subs.getD i dflt) v = true ∧ (subs.getD i dflt).Closed = false
            ∧ (subs.getD i dflt).Updates.length < 100
         then (subs.getD i dflt).Updates ++ [msg]
         else (subs.getD i dflt).Updates) := by
  constructor
  · rw [notify_update_getD subs i hi msg v dflt]
    exact sendUpdate_queue (subs.getD i dflt) msg v
  · rw [notify_delete_getD subs i hi msg v dflt]
    exact sendUpdate_queue (subs.getD i dflt) msg v

/-- Decompose one step of the segment walk. -/
theorem walkSegs_cons (root : List (String × MColl)) (r : String) (rem : List String)
    (i : Nat) (c : Option MColl) (d : Option MDoc) (st : Option MColl × Option MDoc)
    (hw : walkSegs root i (r :: rem) c d = some st) :
    ∃ c2 d2, walkSegs root i [r] c d = some (c2, d2)
      ∧ walkSegs root (i + 1) rem c2 d2 = some st := by
  by_cases hi : i = 0
  · simp only [walkSegs, if_pos hi] at hw ⊢
    cases hl : lookupStr root r with
    | none => rw [hl] at hw; cases hw
    | some cx =>
      rw [hl] at hw
      exact ⟨some cx, d, rfl, hw⟩
  · by_cases hodd : i % 2 = 1
    · simp only [walkSegs, if_neg hi, if_pos hodd] at hw ⊢
      cases c with
      | none => cases hw
      | some cc =>
        dsimp only at hw ⊢
        cases hl : cc.findDoc r with
        | none => rw [hl] at hw; cases hw
        | some dd =>
          rw [hl] at hw
          exact ⟨some cc, some dd, rfl, hw⟩
    · simp only [walkSegs, if_neg hi, if_neg hodd] at hw ⊢
      cases d with
      | none => cases hw
      | some dd =>
        dsimp only at hw ⊢
        cases hl : dd.getColl r with
        | none => rw [hl] at hw; cases hw
        | some cx =>
          rw [hl] at hw
          exact ⟨some cx, some dd, rfl, hw⟩

/-- One non-empty segment advances the ParsePath loop exactly as the
walk does. -/
theorem parseLoop_cons_step (finalRes : Int) (root : List (String × MColl)) (r : String)
    (rem : List String) (i total : Nat) (c : Option MColl) (d : Option MDoc)
    (c2 : Option MColl) (d2 : Option MDoc) (hr : r ≠ "")
    (hstep : walkSegs root i [r] c d = some (c2, d2)) :
    parseLoop finalRes root i total (r :: rem) c d
      = parseLoop finalRes root (i + 1) total rem c2 d2 := by
  by_cases hi : i = 0
  · simp only [walkSegs, if_pos hi] at hstep
    cases hl : lookupStr root r with
    | none => rw [hl] at hstep; cases hstep
    | some cx =>
      rw [hl] at hstep
      simp only [walkSegs] at hstep
      cases hstep
      simp only [parseLoop, if_neg hr, if_pos hi, hl]
  · by_cases hodd : i % 2 = 1
    · simp only [walkSegs, if_neg hi, if_pos hodd] at hstep
      cases c with
      | none => cases hstep
      | some cc =>
        dsimp only at hstep
        cases hl : cc.findDoc r with
        | none => rw [hl] at hstep; cases hstep
        | some dd =>
          rw [hl] at hstep
          simp only [walkSegs] at hstep
          cases hstep
          simp only [parseLoop, if_neg hr, if_neg hi, if_pos hodd, hl]
    · simp only [walkSegs, if_neg hi, if_neg hodd] at hstep
      cases d with
      | none => cases hstep
      | some dd =>
        dsimp only at hstep
        cases hl : dd.getColl r with
        | none => rw [hl] at hstep; cases hstep
        | some cx =>
          rw [hl] at hstep
          simp only [walkSegs] at hstep
          cases hstep
          simp only [parseLoop, if_neg hr, if_neg hi, if_neg hodd, hl]

/-- All-lookups-succeed run of the loop over non-empty segments. -/
theorem parseLoop_of_walk (finalRes : Int) (root : List (String × MColl)) :
    ∀ (rem : List String) (i total : Nat) (c : Option MColl) (d : Option MDoc)
      (out : Option MColl × Option MDoc),
      (∀ r ∈ rem, r ≠ "") →
      walkSegs root i rem c d = some out →
      parseLoop finalRes root i total rem c d = .ok out
  | [], i, total, c, d, out, _, hw => by
    simp only [walkSegs] at hw
    cases hw
    rfl
  | r :: rem, i, total, c, d, out, hne, hw => by
    obtain ⟨c2, d2, hstep, hrest⟩ := walkSegs_cons root r rem i c d out hw
    rw [parseLoop_cons_step finalRes root r rem i total c d c2 d2
      (hne r (List.mem_cons_self _ _)) hstep]
    exact parseLoop_of_walk finalRes root rem (i + 1) total c2 d2 out
      (fun x hx => hne x (List.mem_cons_of_mem _ hx)) hrest

/-- An internal empty segment, reached after successful lookups, yields
the blank-pathname error. -/
theorem parseLoop_internal_blank (finalRes : Int) (root : List (String × MColl)) :
    ∀ (pre post : List String) (i total : Nat) (c : Option MColl) (d : Option MDoc)
      (st : Option MColl × Option MDoc),
      (∀ r ∈ pre, r ≠ "") →
      walkSegs root i pre c d = some st →
      i + pre.length ≠ total - 1 →
      parseLoop finalRes root i total (pre ++ "" :: post) c d
        = .error (none, none, ERROR_BLANK_PATHNAME)
  | [], post, i, total, c, d, st, _, hw, hpos => by
    have hpos0 : i ≠ total - 1 := by simpa using hpos
    simp only [List.nil_append]
    simp only [parseLoop]
    rw [if_pos trivial]
    rw [if_pos hpos0]
  | r :: pre, post, i, total, c, d, st, hne, hw, hpos => by
    obtain ⟨c2, d2, hstep, hrest⟩ := walkSegs_cons root r pre i c d st hw
    rw [List.cons_append]
    rw [parseLoop_cons_step finalRes root r (pre ++ "" :: post) i total c d c2 d2
      (hne r (List.mem_cons_self _ _)) hstep]
    exact parseLoop_internal_blank finalRes root pre post (i + 1) total c2 d2 st
      (fun x hx => hne x (List.mem_cons_of_mem _ hx)) hrest
      (by simp only [List.length_cons] at hpos; omega)

/-- A final empty segment, reached after successful lookups with a live
collection, returns that collection with the classified code. -/
theorem parseLoop_final_blank (finalRes : Int) (root : List (String × MColl)) :
    ∀ (pre : List String) (i total : Nat) (c : Option MColl) (d : Option MDoc)
      (cc : MColl) (dd : Option MDoc),
      (∀ r ∈ pre, r ≠ "") →
      walkSegs root i pre c d = some (some cc, dd) →
      i + pre.length = total - 1 →
      0 < i + pre.length →
      parseLoop finalRes root i total (pre ++ [""]) c d = .error (some cc, none, finalRes)
  | [], i, total, c, d, cc, dd, _, hw, hfin, hpos => by
    simp only [walkSegs] at hw
    cases hw
    have hfin0 : i = total - 1 := by simpa using hfin
    have hpos0 : 0 < i := by simpa using hpos
    simp only [List.nil_append]
    simp only [parseLoop]
    rw [if_pos trivial]
    rw [if_neg (show ¬(i ≠ total - 1) by omega)]
    rw [if_neg (show ¬(i = 0) by omega)]
  | r :: pre, i, total, c, d, cc, dd, hne, hw, hfin, hpos => by
    obtain ⟨c2, d2, hstep, hrest⟩ := walkSegs_cons root r pre i c d (some cc, dd) hw
    rw [List.cons_append]
    rw [parseLoop_cons_step finalRes root r (pre ++ [""]) i total c d c2 d2
      (hne r (List.mem_cons_self _ _)) hstep]
    exact parseLoop_final_blank finalRes root pre (i + 1) total c2 d2 cc dd
      (fun x hx => hne x (List.mem_cons_of_mem _ hx)) hrest
      (by simp only [List.length_cons] at hfin; omega)
      (by omega)

theorem hasV1_false_no_version (request : String) (root : List (String × MColl))
    (h : hasV1 request = false) :
    ParsePath request root = (none, none, ERROR_NO_VERSION) := by
  unfold hasV1 at h
  unfold ParsePath
  split
  next pc heq => simp only [heq] at h; cases h
  next => rfl

theorem parsePathRes_odd_bad_slash (rs : List String) (root : List (String × MColl))
    (h1 : 1 < rs.length) (h2 : rs.length % 2 = 1) :
    parsePathRes rs root = (none, none, ERROR_BAD_SLASH) := by
  unfold parsePathRes
  rw [if_neg (by omega)]
  rw [if_pos ⟨h1, h2⟩]

theorem parsePathRes_db_put_del (s : String) (c : MColl) (root : List (String × MColl))
    (hs : s ≠ "") (hl : lookupStr root s = some c) :
    parsePathRes [s] root = (some c, none, RESOURCE_DB_PUT_DEL) := by
  have hloop : parseLoop RESOURCE_DB_PUT_DEL root 0 1 [s] none none
      = .ok (some c, none) := by
    apply parseLoop_of_walk
    · intro r hr
      simp only [List.mem_singleton] at hr
      subst hr
      exact hs
    · simp [walkSegs, hl]
  unfold parsePathRes
  rw [if_neg (by simp)]
  rw [if_neg (by simp)]
  simp only [List.length_singleton, if_true]
  rw [hloop]

theorem parsePathRes_db_slash (s : String) (c : MColl) (root : List (String × MColl))
    (hs : s ≠ "") (hl : lookupStr root s = some c) :
    parsePathRes [s, ""] root = (some c, none, RESOURCE_DB) := by
  have hwalk : walkSegs root 0 [s] none none = some (some c, none) := by
    simp [walkSegs, hl]
  have hloop : parseLoop RESOURCE_DB root 0 2 ([s] ++ [""]) none none
      = .error (some c, none, RESOURCE_DB) := by
    apply parseLoop_final_blank RESOURCE_DB root [s] 0 2 none none c none ?_ hwalk ?_ ?_
    · intro r hr
      simp only [List.mem_singleton] at hr
      subst hr
      exact hs
    · simp
    · simp
  simp only [List.singleton_append] at hloop
  unfold parsePathRes
  rw [if_neg (by simp)]
  rw [if_neg (by simp)]
  simp only [List.length_cons, List.length_singleton, List.length_nil]
  rw [if_neg (by omega)]
  rw [if_pos (by simp)]
  rw [hloop]

theorem getD1_mem (rs : List String) (h2 : 2 ≤ rs.length) : rs.getD 1 "x" ∈ rs := by
  match rs, h2 with
  | a :: b :: t, _ =>
    simp [List.getD]

theorem getLastD_mem : ∀ (rs : List String), rs ≠ [] → rs.getLast?.getD "x" ∈ rs
  | [], h => absurd rfl h
  | [a], _ => by simp
  | a :: b :: t, _ => by
    rw [List.getLast?_cons_cons]
    exact List.mem_cons_of_mem _ (getLastD_mem (b :: t) (by simp))

theorem parsePathRes_doc (rs : List String) (root : List (String × MColl))
    (oc : Option MColl) (d : MDoc)
    (hne : ∀ r ∈ rs, r ≠ "") (hlen : 2 ≤ rs.length) (heven : rs.length % 2 = 0)
    (hw : walkSegs root 0 rs none none = some (oc, some d)) :
    parsePathRes rs root = (none, some d, RESOURCE_DOC) := by
  have hloop := parseLoop_of_walk RESOURCE_DOC root rs 0 rs.length none none
    (oc, some d) hne hw
  have hget1 : rs.getD 1 "x" ≠ "" := hne _ (getD1_mem rs hlen)
  have hlast : rs.getLast?.getD "x" ≠ "" := hne _ (getLastD_mem rs (by
    intro h
    rw [h] at hlen
    simp at hlen))
  unfold parsePathRes
  rw [if_neg (by omega)]
  rw [if_neg (by omega)]
  rw [if_neg (by omega : ¬(rs.length = 1))]
  rw [if_neg (by intro hc; exact hget1 hc.2)]
  rw [if_neg (by intro hc; exact hlast hc.2)]
  dsimp only
  rw [hloop]
  simp [RESOURCE_DOC, RESOURCE_DB_PUT_DEL]

theorem parsePathRes_coll (rs : List String) (root : List (String × MColl))
    (c : MColl) (od : Option MDoc)
    (hne : ∀ r ∈ rs, r ≠ "") (hlen : 3 ≤ rs.length) (hodd : rs.length % 2 = 1)
    (hw : walkSegs root 0 rs none none = some (some c, od)) :
    parsePathRes (rs ++ [""]) root = (some c, none, RESOURCE_COLL) := by
  have hloop := parseLoop_final_blank RESOURCE_COLL root rs 0 (rs.length + 1) none none
    c od hne hw (by omega) (by omega)
  have hlast : (rs ++ [""]).getLast?.getD "x" = "" := by
    rw [List.getLast?_concat]
    rfl
  have hlen2 : (rs ++ [""]).length = rs.length + 1 := by simp
  unfold parsePathRes
  rw [if_neg (by omega)]
  rw [if_neg (by rw [hlen2]; omega)]
  rw [if_neg (by rw [hlen2]; omega : ¬((rs ++ [""]).length = 1))]
  rw [if_neg (by intro hc; rw [hlen2] at hc; omega)]
  rw [if_pos ⟨by rw [hlen2]; omega, hlast⟩]
  dsimp only
  rw [hlen2, hloop]

theorem parsePathRes_internal_blank (pre post : List String) (root : List (String × MColl))
    (st : Option MColl × Option MDoc)
    (hne : ∀ r ∈ pre, r ≠ "") (hpost : post ≠ [])
    (heven : (pre.length + 1 + post.length) % 2 = 0)
    (hw : walkSegs root 0 pre none none = some st) :
    parsePathRes (pre ++ "" :: post) root = (none, none, ERROR_BLANK_PATHNAME) := by
  have hplen : 1 ≤ post.length := by
    cases post with
    | nil => exact absurd rfl hpost
    | cons a t => simp
  have hlen2 : (pre ++ "" :: post).length = pre.length + 1 + post.length := by
    simp
    omega
  have hloop := parseLoop_internal_blank
    (if (pre ++ "" :: post).length = 1 then RESOURCE_DB_PUT_DEL
     else if (pre ++ "" :: post).length = 2 ∧ (pre ++ "" :: post).getD 1 "x" = "" then RESOURCE_DB
     else if 2 < (pre ++ "" :: post).length ∧ ((pre ++ "" :: post).getLast?.getD "x") = ""
       then RESOURCE_COLL
     else RESOURCE_DOC)
    root pre post 0 (pre ++ "" :: post).length none none st hne hw
    (by rw [hlen2]; omega)
  unfold parsePathRes
  rw [if_neg (by rw [hlen2]; omega)]
  rw [if_neg (by rw [hlen2]; intro hc; omega)]
  dsimp only
  rw [hloop]

/-- C9 witness: one open subscriber with interval containing the value. -/
theorem notify_enqueue_characterization_witness :
    (0 : Nat) < 1
  ∧ (((NotifySubscribersUpdate [⟨"s2", [97], [122], false, []⟩] [1] [104]).getD 0
        ⟨"d", [], [], false, []⟩).Updates
      = (if inInterval (([⟨"s2", [97], [122], false, []⟩] :
              List Subscriber).getD 0 ⟨"d", [], [], false, []⟩) [104] = true
            ∧ (([⟨"s2", [97], [122], false, []⟩] :
              List Subscriber).getD 0 ⟨"d", [], [], false, []⟩).Closed = false
            ∧ (([⟨"s2", [97], [122], false, []⟩] :
              List Subscriber).getD 0 ⟨"d", [], [], false, []⟩).Updates.length < 100
         then (([⟨"s2", [97], [122], false, []⟩] :
              List Subscriber).getD 0 ⟨"d", [], [], false, []⟩).Updates ++ [[1]]
         else (([⟨"s2", [97], [122], false, []⟩] :
              List Subscriber).getD 0 ⟨"d", [], [], false, []⟩).Updates))
  ∧ ((NotifySubscribersDelete [⟨"s2", [97], [122], false, []⟩] [1] [104]).getD 0
        ⟨"d", [], [], false, []⟩).Updates
      = (if inInterval (([⟨"s2", [97], [122], false, []⟩] :
              List Subscriber).getD 0 ⟨"d", [], [], false, []⟩) [104] = true
            ∧ (([⟨"s2", [97], [122], false, []⟩] :
              List Subscriber).getD 0 ⟨"d", [], [], false, []⟩).Closed = false
            ∧ (([⟨"s2", [97], [122], false, []⟩] :
              List Subscriber).getD 0 ⟨"d", [], [], false, []⟩).Updates.length < 100
         then (([⟨"s2", [97], [122], false, []⟩] :
              List Subscriber).getD 0 ⟨"d", [], [], false, []⟩).Updates ++ [[1]]
         else (([⟨"s2", [97], [122], false, []⟩] :
              List Subscriber).getD 0 ⟨"d", [], [], false, []⟩).Updates) :=
  ⟨by decide,
   (notify_enqueue_characterization [⟨"s2", [97], [122], false, []⟩] [1] [104]
      ⟨"d", [], [], false, []⟩ 0 (by decide)).1,
   (notify_enqueue_characterization [⟨"s2", [97], [122], false, []⟩] [1] [104]
      ⟨"d", [], [], false, []⟩ 0 (by decide)).2⟩

/-- C6 counterexample: the URI `/v1/a//b` has an empty segment in a
non-final position, so the claim classifies it as blank-pathname; the
code's parity check runs first (the split has odd length 3 greater than
1) and returns bad-slash instead. -/
theorem parsePath_blank_before_parity_cex :
    ParsePath "/v1/a//b" [] = (none, none, ERROR_BAD_SLASH)
  ∧ (ERROR_BAD_SLASH == ERROR_BLANK_PATHNAME) = false :=
  ⟨rfl, by decide⟩

/-- C6 (amended): ParsePath classifies URIs as follows.  A URI without
the literal `/v1/` prefix yields the no-version error.  After the
prefix, splitting on `/`: an odd split length greater than 1 yields
bad-slash regardless of empty segments (the parity check precedes the
blank check); a single non-empty segment resolving to a database is a
database put/delete target; `name` plus a trailing empty segment is a
database; an even number (≥ 2) of non-empty resolving segments is a
document; an odd number (≥ 3) of non-empty resolving segments followed
by a trailing empty segment is a collection; and an empty segment in a
non-final position yields blank-pathname provided the parity check
passes and every lookup before that segment succeeds. -/
theorem parsePath_classification_amended :
    (∀ (request : String) (root : List (String × MColl)),
        hasV1 request = false →
        ParsePath request root = (none, none, ERROR_NO_VERSION))
  ∧ (∀ (rs : List String) (root : List (String × MColl)),
        1 < rs.length → rs.length % 2 = 1 →
        parsePathRes rs root = (none, none, ERROR_BAD_SLASH))
  ∧ (∀ (s : String) (c : MColl) (root : List (String × MColl)),
        s ≠ "" → lookupStr root s = some c →
        parsePathRes [s] root = (some c, none, RESOURCE_DB_PUT_DEL))
  ∧ (∀ (s : String) (c : MColl) (root : List (String × MColl)),
        s ≠ "" → lookupStr root s = some c →
        parsePathRes [s, ""] root = (some c, none, RESOURCE_DB))
  ∧ (∀ (rs : List String) (root : List (String × MColl)) (oc : Option MColl) (d : MDoc),
        (∀ r ∈ rs, r ≠ "") → 2 ≤ rs.length → rs.length % 2 = 0 →
        walkSegs root 0 rs none none = some (oc, some d) →
        parsePathRes rs root = (none, some d, RESOURCE_DOC))
  ∧ (∀ (rs : List String) (root : List (String × MColl)) (c : MColl) (od : Option MDoc),
        (∀ r ∈ rs, r ≠ "") → 3 ≤ rs.length → rs.length % 2 = 1 →
        walkSegs root 0 rs none none = some (some c, od) →
        parsePathRes (rs ++ [""]) root = (some c, none, RESOURCE_COLL))
  ∧ (∀ (pre post : List String) (root : List (String × MColl))
        (st : Option MColl × Option MDoc),
        (∀ r ∈ pre, r ≠ "") → post ≠ [] →
        (pre.length + 1 + post.length) % 2 = 0 →
        walkSegs root 0 pre none none = some st →
        parsePathRes (pre ++ "" :: post) root = (none, none, ERROR_BLANK_PATHNAME)) :=
  ⟨hasV1_false_no_version,
   parsePathRes_odd_bad_slash,
   parsePathRes_db_put_del,
   parsePathRes_db_slash,
   parsePathRes_doc,
   fun rs root c od hne hlen hodd hw =>
     parsePathRes_coll rs root c od hne hlen hodd hw,
   parsePathRes_internal_blank⟩

/-- C6 witness: `/v1/db/doc` resolves to a document in a one-database
tree, and a prefix-less URI yields the no-version error. -/
theorem parsePath_classification_amended_witness :
    (∀ r ∈ (["db", "doc"] : List String), r ≠ "")
  ∧ parsePathRes ["db", "doc"] [("db", MColl.mk [("doc", MDoc.mk [])])]
      = (none, some (MDoc.mk []), RESOURCE_DOC)
  ∧ ParsePath "/nope" [] = (none, none, ERROR_NO_VERSION) :=
  ⟨by decide,
   parsePath_classification_amended.2.2.2.2.1 ["db", "doc"]
     [("db", MColl.mk [("doc", MDoc.mk [])])]
     (some (MColl.mk [("doc", MDoc.mk [])])) (MDoc.mk [])
     (by decide) (by decide) (by decide) rfl,
   parsePath_classification_amended.1 "/nope" [] rfl⟩

end OwlDB
